import Mathlib

/-!
# Base blockset (`blockset/base.go`)

A shallow embedding of the base blockset of the block-virtualization layer:
the reference sequence, the allocation counter, the sparse zero read through
the package-level scratch buffer, `PutBlock`, `Truncate`, `Trim` and the
`Marshal`/`Unmarshal` wire format.

Conventions of the embedding.

* Go `int` arguments are `Int`; the allocation counter `ids` is a `uint64`,
  held as a `Nat` and incremented modulo `2^64`.
* A run-time panic (index out of range, nil store) is an explicit outcome.
* The bound `agro.BlockStore` is an interface: its methods are a record of
  functions over a store state, and every call the blockset issues to it is
  recorded in the result of the operation.
* Logging (`clog`) and the Prometheus failure counter are not modelled.
-/

set_option autoImplicit false

namespace agro

/-- A byte of a data block. -/
abbrev Byte := Fin 256

/-- The cancellation token threaded to every store call; the blockset only passes it on. -/
abbrev Context := Nat

/-- Modelled from the spec: `agro.INodeRef` is declared outside `blockset/base.go`.
It is the identity of the owning object; `base.go` reads its `INode` field. -/
structure INodeRef where
  Volume : Nat
  INode : Nat
deriving DecidableEq, Repr

/-- Modelled from the spec: `agro.BlockRef` is declared outside `blockset/base.go`.
It is `{owner_inode, sequence_index}`, built in `makeID` as
`agro.BlockRef{INodeRef: i, Index: agro.IndexID(id)}`. -/
structure BlockRef extends INodeRef where
  Index : Nat
deriving DecidableEq, Repr

/-- Modelled from the spec: `agro.ZeroBlock()`, the zero value of `BlockRef`
(owner inode and sequence index both zero). -/
def ZeroBlock : BlockRef := { Volume := 0, INode := 0, Index := 0 }

/-- Modelled from the spec: `BlockRef.IsZero()`, true exactly on the zero sentinel. -/
def BlockRef.IsZero (r : BlockRef) : Bool :=
  r.Volume == 0 && r.INode == 0 && r.Index == 0

/-- Errors returned through Go's `error` interface. -/
inductive Error where
  | BlockNotExist
  | other (code : Nat)
deriving DecidableEq, Repr

/-- The `agro.BlockStore` interface as far as `base.go` calls it, over a store
state `σ`. `GetBlock` returns Go's pair `(bytes, err)`. -/
structure BlockStore (σ : Type) where
  BlockSize : σ → Nat
  GetBlock : σ → Context → BlockRef → σ × List Byte × Option Error
  WriteBlock : σ → Context → BlockRef → List Byte → σ × Option Error

/-- The per-entry wire codec (`agro.BlockRefByteSize`, `BlockRef.ToBytesBuf`,
`agro.BlockRefFromBytes`), declared outside `blockset/base.go`. `ToBytesBuf`
writes into the slice it is given, so it maps the old contents of that slice to
the new contents of the same length. -/
structure Codec where
  BlockRefByteSize : Nat
  BlockRefByteSize_pos : 0 < BlockRefByteSize
  ToBytesBuf : BlockRef → List Byte → List Byte
  ToBytesBuf_length : ∀ r buf, (ToBytesBuf r buf).length = buf.length
  BlockRefFromBytes : List Byte → BlockRef

end agro

namespace blockset

open agro

/-- Why a call panicked. -/
inductive PanicKind where
  | blocksIndex
  | blocksSlice
  | zeroesIndex
  | nilStore
deriving DecidableEq, Repr

/-- How a call ends: a normal return with a value, a returned error, or a panic. -/
inductive Outcome (α : Type) where
  | ok (a : α)
  | error (e : Error)
  | panic (k : PanicKind)
deriving DecidableEq, Repr

/-- A call issued to the bound store. -/
inductive StoreCall where
  | getBlock (ctx : Context) (ref : BlockRef)
  | writeBlock (ctx : Context) (ref : BlockRef) (data : List Byte)
deriving DecidableEq, Repr

/-- The struct `baseBlockset`. `store` is `none` for a nil store. -/
structure baseBlockset (σ : Type) where
  ids : Nat
  blocks : List BlockRef
  store : Option σ
  blocksize : Nat

/-- Go indexing `xs[i]` with its bounds check: `none` is the panic. -/
def index? {α : Type} (xs : List α) (i : Int) : Option α :=
  if i < 0 then none else xs[i.toNat]?

/-- Go assignment `xs[i] = v` with its bounds check: `none` is the panic. -/
def setIndex? {α : Type} (xs : List α) (i : Int) (v : α) : Option (List α) :=
  if i < 0 then none
  else if i.toNat < xs.length then some (xs.set i.toNat v) else none

/-- Go's `newBaseBlockset`. -/
def newBaseBlockset {σ : Type} (S : BlockStore σ) (store : Option σ) : baseBlockset σ :=
  { ids := 0
    blocks := []
    store := store
    blocksize := match store with
      | some s => S.BlockSize s
      | none => 0 }

/-- Go's `Length`. -/
def Length {σ : Type} (b : baseBlockset σ) : Int := b.blocks.length

/-- Length of the package-level `var zeroes = make([]byte, 1024*1024)`. -/
def zeroesLen : Nat := 1024 * 1024

/-- Contents of the package-level array `zeroes`, by index below `zeroesLen`. -/
abbrev Scratch := Nat → Byte

/-- The loop `for i := uint64(0); i < b.blocksize; i++ { zeroes[i] = 0 }` with
`n` iterations left at index `i`. The flag is true when `zeroes[i]` panicked. -/
def zeroFill : Nat → Nat → Scratch → Scratch × Bool
  | 0, _, z => (z, false)
  | n + 1, i, z =>
    if i < zeroesLen then zeroFill n (i + 1) (Function.update z i 0) else (z, true)

/-- A byte slice returned by `GetBlock`: either `zeroes[:n]`, which shares the
package-level array, or the buffer handed back by the store. -/
inductive Buf where
  | zeroesSlice (n : Nat)
  | stored (bytes : List Byte)
deriving DecidableEq, Repr

/-- The bytes seen through a slice, given the current contents of `zeroes`. -/
def Buf.bytes (z : Scratch) : Buf → List Byte
  | .zeroesSlice n => (List.range n).map z
  | .stored bytes => bytes

/-- Result of `GetBlock`: the blockset (its store state may have moved), the
contents of `zeroes`, the outcome and the store calls issued. -/
structure GetResult (σ : Type) where
  b : baseBlockset σ
  zeroes : Scratch
  out : Outcome Buf
  calls : List StoreCall

/-- Go's `GetBlock`. -/
def GetBlock {σ : Type} (S : BlockStore σ) (b : baseBlockset σ) (zeroes : Scratch)
    (ctx : Context) (i : Int) : GetResult σ :=
  if i ≥ (b.blocks.length : Int) then ⟨b, zeroes, .error .BlockNotExist, []⟩
  else
    match index? b.blocks i with
    | none => ⟨b, zeroes, .panic .blocksIndex, []⟩
    | some r =>
      if r.IsZero then
        match zeroFill b.blocksize 0 zeroes with
        | (z, true) => ⟨b, z, .panic .zeroesIndex, []⟩
        | (z, false) => ⟨b, z, .ok (.zeroesSlice b.blocksize), []⟩
      else
        match b.store with
        | none => ⟨b, zeroes, .panic .nilStore, []⟩
        | some s =>
          match S.GetBlock s ctx r with
          | (s1, _, some e) =>
            ⟨{ b with store := some s1 }, zeroes, .error e, [.getBlock ctx r]⟩
          | (s1, bytes, none) =>
            ⟨{ b with store := some s1 }, zeroes, .ok (.stored bytes), [.getBlock ctx r]⟩

/-- Go's `makeID`: `atomic.AddUint64(&b.ids, 1)` and the new reference. -/
def makeID {σ : Type} (b : baseBlockset σ) (i : INodeRef) : baseBlockset σ × BlockRef :=
  let id := (b.ids + 1) % 2 ^ 64
  ({ b with ids := id }, { toINodeRef := i, Index := id })

/-- Result of a call that returns only `error`: the blockset afterwards, the
outcome and the store calls issued. -/
structure OpResult (σ : Type) where
  b : baseBlockset σ
  out : Outcome Unit
  calls : List StoreCall

/-- Go's `PutBlock`. -/
def PutBlock {σ : Type} (S : BlockStore σ) (b : baseBlockset σ) (ctx : Context)
    (inode : INodeRef) (i : Int) (data : List Byte) : OpResult σ :=
  if i > (b.blocks.length : Int) then ⟨b, .error .BlockNotExist, []⟩
  else
    let p := makeID b inode
    let b1 := p.1
    let newBlockID := p.2
    match b1.store with
    | none => ⟨b1, .panic .nilStore, []⟩
    | some s =>
      match S.WriteBlock s ctx newBlockID data with
      | (s1, some e) =>
        ⟨{ b1 with store := some s1 }, .error e, [.writeBlock ctx newBlockID data]⟩
      | (s1, none) =>
        if i = (b1.blocks.length : Int) then
          ⟨{ b1 with store := some s1, blocks := b1.blocks ++ [newBlockID] }, .ok (),
            [.writeBlock ctx newBlockID data]⟩
        else
          match setIndex? b1.blocks i newBlockID with
          | none =>
            ⟨{ b1 with store := some s1 }, .panic .blocksIndex,
              [.writeBlock ctx newBlockID data]⟩
          | some bl =>
            ⟨{ b1 with store := some s1, blocks := bl }, .ok (),
              [.writeBlock ctx newBlockID data]⟩

/-- The loop `for toadd != 0 { b.blocks = append(b.blocks, agro.ZeroBlock()); toadd-- }`. -/
def appendZeroes : Nat → List BlockRef → List BlockRef
  | 0, bl => bl
  | toadd + 1, bl => appendZeroes toadd (bl ++ [ZeroBlock])

/-- Go's `Truncate`. The second argument (a block size) is ignored by the code. -/
def Truncate {σ : Type} (b : baseBlockset σ) (lastIndex : Int) (_ : Nat) : OpResult σ :=
  if lastIndex ≤ (b.blocks.length : Int) then
    if lastIndex < 0 then ⟨b, .panic .blocksSlice, []⟩
    else ⟨{ b with blocks := b.blocks.take lastIndex.toNat }, .ok (), []⟩
  else
    ⟨{ b with blocks := appendZeroes (lastIndex - (b.blocks.length : Int)).toNat b.blocks },
      .ok (), []⟩

/-- The loop `for i := from; i < to; i++ { b.blocks[i] = agro.ZeroBlock() }` with
`n` iterations left at index `i`. The flag is true when `b.blocks[i]` panicked. -/
def trimLoop : Nat → Int → List BlockRef → List BlockRef × Bool
  | 0, _, bl => (bl, false)
  | n + 1, i, bl =>
    match setIndex? bl i ZeroBlock with
    | none => (bl, true)
    | some bl1 => trimLoop n (i + 1) bl1

/-- Go's `Trim(from, to)`. -/
def Trim {σ : Type} (b : baseBlockset σ) (from_ to_ : Int) : OpResult σ :=
  if from_ ≥ (b.blocks.length : Int) then ⟨b, .ok (), []⟩
  else
    let to1 := if to_ > (b.blocks.length : Int) then (b.blocks.length : Int) else to_
    match trimLoop (to1 - from_).toNat from_ b.blocks with
    | (bl, true) => ⟨{ b with blocks := bl }, .panic .blocksIndex, []⟩
    | (bl, false) => ⟨{ b with blocks := bl }, .ok (), []⟩

/-- Go's slice expression `buf[lo:hi]` on the contents. -/
def slice {α : Type} (buf : List α) (lo hi : Nat) : List α :=
  (buf.drop lo).take (hi - lo)

/-- Writing new contents through the slice `buf[lo:hi]` of `buf`. -/
def writeSlice {α : Type} (buf : List α) (lo hi : Nat) (new : List α) : List α :=
  buf.take lo ++ new ++ buf.drop hi

/-- The loop of `Marshal`: `x.ToBytesBuf(buf[i*BlockRefByteSize : (i+1)*BlockRefByteSize])`
for every entry `x` at index `i`. -/
def marshalLoop (C : Codec) : Nat → List BlockRef → List Byte → List Byte
  | _, [], buf => buf
  | i, x :: xs, buf =>
    marshalLoop C (i + 1) xs
      (writeSlice buf (i * C.BlockRefByteSize) ((i + 1) * C.BlockRefByteSize)
        (C.ToBytesBuf x (slice buf (i * C.BlockRefByteSize) ((i + 1) * C.BlockRefByteSize))))

/-- Go's `Marshal`: the bytes returned (the error is always nil) and the blockset afterwards. -/
def Marshal {σ : Type} (C : Codec) (b : baseBlockset σ) : baseBlockset σ × List Byte × Outcome Unit :=
  (b, marshalLoop C 0 b.blocks (List.replicate (b.blocks.length * C.BlockRefByteSize) 0), .ok ())

/-- Go's `Unmarshal`. -/
def Unmarshal {σ : Type} (C : Codec) (b : baseBlockset σ) (data : List Byte) : OpResult σ :=
  let l := data.length / C.BlockRefByteSize
  let out := (List.range l).map fun i =>
    C.BlockRefFromBytes (slice data (i * C.BlockRefByteSize) ((i + 1) * C.BlockRefByteSize))
  ⟨{ b with blocks := out }, .ok (), []⟩

/-- Go's `setStore`. -/
def setStore {σ : Type} (S : BlockStore σ) (b : baseBlockset σ) (s : σ) : baseBlockset σ :=
  { b with blocksize := S.BlockSize s, store := some s }

/-- The store law of a key/value map: what a successful `WriteBlock(ref, data)`
wrote is what `GetBlock(ref)` returns. -/
def StoreReadsBackWrites {σ : Type} (S : BlockStore σ) : Prop :=
  ∀ (s s1 : σ) (ctx : Context) (ref : BlockRef) (data : List Byte),
    S.WriteBlock s ctx ref data = (s1, none) →
      ∀ ctx1 : Context, ∃ s2 : σ, S.GetBlock s1 ctx1 ref = (s2, data, none)

/-- An in-memory key/value block store with a fixed block size: `WriteBlock`
records the pair and `GetBlock` returns the bytes last written under the key. -/
def memStore (blockSize : Nat) : BlockStore (List (BlockRef × List Byte)) where
  BlockSize := fun _ => blockSize
  GetBlock := fun s _ ref =>
    match s.lookup ref with
    | some d => (s, d, none)
    | none => (s, [], some .BlockNotExist)
  WriteBlock := fun s _ ref data => ((ref, data) :: s, none)

/-- A block store whose reads and writes always fail with the given error. -/
def failStore (blockSize : Nat) (e : Error) : BlockStore Unit where
  BlockSize := fun _ => blockSize
  GetBlock := fun s _ _ => (s, [], some e)
  WriteBlock := fun s _ _ _ => (s, some e)

/-- Big-endian bytes of a 64-bit field, most significant first. -/
def be64 (x : Nat) : List Byte :=
  (List.range 8).map fun k => ⟨(x / 256 ^ (7 - k)) % 256, Nat.mod_lt _ (by decide)⟩

/-- The number whose big-endian bytes are given. -/
def fromBe (bytes : List Byte) : Nat :=
  bytes.foldl (fun acc byte => acc * 256 + byte.val) 0

/-- A 24-byte entry: volume, inode and index, 8 bytes each. -/
def encodeRef (r : BlockRef) : List Byte :=
  be64 r.Volume ++ be64 r.INode ++ be64 r.Index

/-- A sample fixed-width codec with which the `Codec` interface is instantiated:
three 8-byte big-endian fields written over the slice it is given. -/
def sampleCodec : Codec where
  BlockRefByteSize := 24
  BlockRefByteSize_pos := by decide
  ToBytesBuf := fun r buf => (encodeRef r).take buf.length ++ buf.drop 24
  ToBytesBuf_length := by
    intro r buf
    simp only [List.length_append, List.length_take, List.length_drop, encodeRef, be64,
      List.length_map, List.length_range]
    omega
  BlockRefFromBytes := fun l =>
    { Volume := fromBe (l.take 8)
      INode := fromBe ((l.drop 8).take 8)
      Index := fromBe ((l.drop 16).take 8) }

/-- The `roaring.Bitmap` built by `GetLiveINodes`: the `uint32` values it holds. -/
abbrev Bitmap := List Nat

/-- The bitmap's `Add(x uint32)`: `x` is in the set afterwards. -/
def bitmapAdd (out : Bitmap) (x : Nat) : Bitmap :=
  if x ∈ out then out else out ++ [x]

/-- The loop of `GetLiveINodes`: zero entries are skipped, `uint32(blk.INode)` is
added for every other entry. The `INode` field is 64 bits wide, so the conversion
keeps its low 32 bits. -/
def liveLoop : List BlockRef → Bitmap → Bitmap
  | [], out => out
  | blk :: rest, out =>
    if blk.IsZero then liveLoop rest out
    else liveLoop rest (bitmapAdd out (blk.INode % 2 ^ 32))

/-- Go's `GetLiveINodes`. -/
def GetLiveINodes {σ : Type} (b : baseBlockset σ) : Bitmap :=
  liveLoop b.blocks []

/-- A caller writing byte `v` at position `k` of a buffer `GetBlock` returned: a
write through `zeroes[:n]` lands in the package-level array, a write into a
buffer of the store stays in that buffer. A position outside the slice is left
alone here (in Go it panics). -/
def Buf.write (z : Scratch) (buf : Buf) (k : Nat) (v : Byte) : Scratch × Buf :=
  match buf with
  | .zeroesSlice n => if k < n then (Function.update z k v, .zeroesSlice n) else (z, .zeroesSlice n)
  | .stored bytes => (z, .stored (bytes.set k v))

/-- The bytes of the buffer a `GetBlock` returned, read at the moment it returns. -/
def GetResult.read {σ : Type} (g : GetResult σ) : Outcome (List Byte) :=
  match g.out with
  | .ok buf => .ok (buf.bytes g.zeroes)
  | .error e => .error e
  | .panic k => .panic k

/-- A mutating call on a blockset. -/
inductive Op where
  | put (ctx : Context) (inode : INodeRef) (i : Int) (data : List Byte)
  | truncate (lastIndex : Int) (blocksize : Nat)
  | trim (from_ to_ : Int)

/-- One call. -/
def step {σ : Type} (S : BlockStore σ) (b : baseBlockset σ) : Op → OpResult σ
  | .put ctx inode i data => PutBlock S b ctx inode i data
  | .truncate lastIndex blocksize => Truncate b lastIndex blocksize
  | .trim from_ to_ => Trim b from_ to_

/-- A finite sequence of calls, one after another on the same blockset. -/
def run {σ : Type} (S : BlockStore σ) (b : baseBlockset σ) : List Op → baseBlockset σ
  | [] => b
  | op :: ops => run S (step S b op).b ops

/-- The counter stays below `2^64` during a sequence of calls: every `PutBlock`
that reaches `makeID` (its index is at most `Length()`) finds `ids + 1 < 2^64`. -/
def noWrap {σ : Type} (S : BlockStore σ) (b : baseBlockset σ) : List Op → Prop
  | [] => True
  | .put ctx inode i data :: ops =>
    (i ≤ Length b → b.ids + 1 < 2 ^ 64) ∧ noWrap S (PutBlock S b ctx inode i data).b ops
  | op :: ops => noWrap S (step S b op).b ops

/-- `PutBlock` calls one after another, each at index `Length()` of the blockset
it finds: the blockset at the end, the outcome of every call and the store calls
issued, in order. -/
def appendRun {σ : Type} (S : BlockStore σ) (b : baseBlockset σ) :
    List (Context × INodeRef × List Byte) → baseBlockset σ × List (Outcome Unit) × List StoreCall
  | [] => (b, [], [])
  | (ctx, inode, data) :: rest =>
    ((appendRun S (PutBlock S b ctx inode (Length b) data).b rest).1,
      (PutBlock S b ctx inode (Length b) data).out
        :: (appendRun S (PutBlock S b ctx inode (Length b) data).b rest).2.1,
      (PutBlock S b ctx inode (Length b) data).calls
        ++ (appendRun S (PutBlock S b ctx inode (Length b) data).b rest).2.2)

/-- The worked example of the specification as a script on a fresh blockset bound
to the store state `s0`: two `PutBlock` calls, `Truncate(3, 4)`, `GetBlock(2)`,
`Trim(0, 1)`, `GetBlock(0)`, `GetBlock(1)`. It returns the outcomes of the four
mutating calls, `Length()` after the `Truncate`, and what the three reads return. -/
def workedExample {σ : Type} (S : BlockStore σ) (s0 : σ) (ctx : Context) (inode : INodeRef)
    (z : Scratch) :
    List (Outcome Unit) × Int × Outcome (List Byte) × Outcome (List Byte) × Outcome (List Byte) :=
  let r1 := PutBlock S (newBaseBlockset S (some s0)) ctx inode 0 [1, 2, 3, 4]
  let r2 := PutBlock S r1.b ctx inode 1 [5, 6, 7, 8]
  let r3 := Truncate r2.b 3 4
  let g2 := GetBlock S r3.b z ctx 2
  let r4 := Trim g2.b 0 1
  let g0 := GetBlock S r4.b g2.zeroes ctx 0
  let g1 := GetBlock S g0.b g0.zeroes ctx 1
  ([r1.out, r2.out, r3.out, r4.out], Length r3.b, g2.read, g0.read, g1.read)

/-- Every entry is the zero sentinel, or one of the references `P` the sequence
was loaded with, or carries a sequence index `k` with `1 <= k <= ids`. -/
def EntriesAllocated {σ : Type} (P : List BlockRef) (b : baseBlockset σ) : Prop :=
  ∀ r ∈ b.blocks, r.IsZero = true ∨ r ∈ P ∨ (1 ≤ r.Index ∧ r.Index ≤ b.ids)

/-- The entries that are not the zero sentinel have pairwise distinct sequence indices. -/
def IndicesDistinct {σ : Type} (b : baseBlockset σ) : Prop :=
  ∀ (i j : Nat) (r1 r2 : BlockRef), i ≠ j → b.blocks[i]? = some r1 → b.blocks[j]? = some r2 →
    r1.IsZero = false → r2.IsZero = false → r1.Index ≠ r2.Index

end blockset

namespace blockset

open agro

/-! ## Bounds-checked indexing -/

theorem index?_eq_getElem? {α : Type} (xs : List α) (i : Int) (h0 : 0 ≤ i) :
    index? xs i = xs[i.toNat]? := by
  unfold index?
  rw [if_neg (by omega)]

theorem index?_neg {α : Type} (xs : List α) (i : Int) (h : i < 0) : index? xs i = none := by
  unfold index?
  rw [if_pos h]

theorem setIndex?_eq_set {α : Type} (xs : List α) (i : Int) (v : α) (h0 : 0 ≤ i)
    (h1 : i < (xs.length : Int)) : setIndex? xs i v = some (xs.set i.toNat v) := by
  unfold setIndex?
  rw [if_neg (by omega), if_pos (by omega)]

theorem setIndex?_neg {α : Type} (xs : List α) (i : Int) (v : α) (h : i < 0) :
    setIndex? xs i v = none := by
  unfold setIndex?
  rw [if_pos h]

/-- A reference with a non-zero sequence index is not the zero sentinel. -/
theorem IsZero_false_of_Index_ne_zero (r : BlockRef) (h : r.Index ≠ 0) : r.IsZero = false := by
  unfold BlockRef.IsZero
  simp [h]

theorem IsZero_ZeroBlock : ZeroBlock.IsZero = true := by
  decide

theorem IsZero_iff (r : BlockRef) : r.IsZero = true ↔ r = ZeroBlock := by
  rcases r with ⟨⟨v, n⟩, k⟩
  simp [BlockRef.IsZero, ZeroBlock, and_assoc]

/-! ## PutBlock: the three ways a call in range can end -/

/-- What `PutBlock` does when the index is in `[0, len]`, the store is bound and
its `WriteBlock` succeeds. -/
theorem PutBlock_ok_eq {σ : Type} (S : BlockStore σ) (b : baseBlockset σ) (ctx : Context)
    (inode : INodeRef) (i : Int) (data : List Byte) (s s1 : σ)
    (h0 : 0 ≤ i) (hi : i ≤ (b.blocks.length : Int)) (hs : b.store = some s)
    (hw : S.WriteBlock s ctx { toINodeRef := inode, Index := (b.ids + 1) % 2 ^ 64 } data
      = (s1, none)) :
    PutBlock S b ctx inode i data =
      ⟨{ ids := (b.ids + 1) % 2 ^ 64
         blocks := if i = (b.blocks.length : Int)
           then b.blocks ++ [{ toINodeRef := inode, Index := (b.ids + 1) % 2 ^ 64 }]
           else b.blocks.set i.toNat { toINodeRef := inode, Index := (b.ids + 1) % 2 ^ 64 }
         store := some s1
         blocksize := b.blocksize },
        .ok (),
        [.writeBlock ctx { toINodeRef := inode, Index := (b.ids + 1) % 2 ^ 64 } data]⟩ := by
  unfold PutBlock
  rw [if_neg (by omega)]
  simp only [makeID, hs, hw]
  by_cases hlen : i = (b.blocks.length : Int)
  · simp [hlen]
  · rw [if_neg hlen, if_neg hlen, setIndex?_eq_set _ _ _ h0 (by omega)]

/-- What `PutBlock` does when the index is at most `len`, the store is bound and
its `WriteBlock` fails. -/
theorem PutBlock_fail_eq {σ : Type} (S : BlockStore σ) (b : baseBlockset σ) (ctx : Context)
    (inode : INodeRef) (i : Int) (data : List Byte) (s s1 : σ) (e : Error)
    (hi : i ≤ (b.blocks.length : Int)) (hs : b.store = some s)
    (hw : S.WriteBlock s ctx { toINodeRef := inode, Index := (b.ids + 1) % 2 ^ 64 } data
      = (s1, some e)) :
    PutBlock S b ctx inode i data =
      ⟨{ ids := (b.ids + 1) % 2 ^ 64, blocks := b.blocks, store := some s1,
         blocksize := b.blocksize },
        .error e,
        [.writeBlock ctx { toINodeRef := inode, Index := (b.ids + 1) % 2 ^ 64 } data]⟩ := by
  unfold PutBlock
  rw [if_neg (by omega)]
  simp only [makeID, hs, hw]

/-- With a nil store a `PutBlock` in range panics after the id was taken. -/
theorem PutBlock_nil_eq {σ : Type} (S : BlockStore σ) (b : baseBlockset σ) (ctx : Context)
    (inode : INodeRef) (i : Int) (data : List Byte)
    (hi : i ≤ (b.blocks.length : Int)) (hs : b.store = none) :
    PutBlock S b ctx inode i data =
      ⟨{ ids := (b.ids + 1) % 2 ^ 64, blocks := b.blocks, store := none,
         blocksize := b.blocksize }, .panic .nilStore, []⟩ := by
  unfold PutBlock
  rw [if_neg (by omega)]
  simp only [makeID, hs]

/-! ## GetBlock on an entry in range -/

/-- A read of an in-range entry that is not the zero sentinel is the store read. -/
theorem GetBlock_stored_eq {σ : Type} (S : BlockStore σ) (b : baseBlockset σ) (z : Scratch)
    (ctx : Context) (i : Int) (r : BlockRef) (s : σ)
    (h0 : 0 ≤ i) (hr : b.blocks[i.toNat]? = some r) (hz : r.IsZero = false)
    (hs : b.store = some s) :
    GetBlock S b z ctx i =
      match S.GetBlock s ctx r with
      | (s1, _, some e) => ⟨{ b with store := some s1 }, z, .error e, [.getBlock ctx r]⟩
      | (s1, bytes, none) =>
        ⟨{ b with store := some s1 }, z, .ok (.stored bytes), [.getBlock ctx r]⟩ := by
  have hlt : i.toNat < b.blocks.length := by
    rcases List.getElem?_eq_some_iff.mp hr with ⟨h, _⟩
    exact h
  unfold GetBlock
  rw [if_neg (by omega), index?_eq_getElem? _ _ h0, hr]
  simp only [hz, hs, Bool.false_eq_true, if_false]

theorem memStore_readsBackWrites (n : Nat) : StoreReadsBackWrites (memStore n) := by
  intro s s1 ctx ref data hw ctx1
  simp only [memStore, Prod.mk.injEq, and_true] at hw
  subst hw
  exact ⟨(ref, data) :: s, by simp [memStore, List.lookup]⟩

/-- C1. Read-after-write: with the allocation counter below `2^64 - 1`, an index
`0 <= i <= Length()` and a store that reads back what was written, a `PutBlock`
that returns no error is followed by a `GetBlock` of the same index that returns
exactly the data written, with no error. -/
theorem C1_read_after_write {σ : Type} (S : BlockStore σ) (hS : StoreReadsBackWrites S)
    (b : baseBlockset σ) (z : Scratch) (ctx ctx1 : Context) (inode : INodeRef) (i : Int)
    (data : List Byte)
    (hids : b.ids < 2 ^ 64 - 1) (h0 : 0 ≤ i) (hi : i ≤ Length b)
    (hput : (PutBlock S b ctx inode i data).out = .ok ()) :
    (GetBlock S (PutBlock S b ctx inode i data).b z ctx1 i).out = .ok (.stored data) := by
  have hi1 : i ≤ (b.blocks.length : Int) := hi
  cases hs : b.store with
  | none =>
    rw [PutBlock_nil_eq S b ctx inode i data hi1 hs] at hput
    cases hput
  | some s =>
    rcases hw : S.WriteBlock s ctx { toINodeRef := inode, Index := (b.ids + 1) % 2 ^ 64 } data
      with ⟨s1, _ | e⟩
    · obtain ⟨s2, hg⟩ := hS s s1 ctx _ data hw ctx1
      rw [PutBlock_ok_eq S b ctx inode i data s s1 h0 hi1 hs hw]
      have hmod : (b.ids + 1) % 2 ^ 64 = b.ids + 1 := Nat.mod_eq_of_lt (by omega)
      have hnz : ({ toINodeRef := inode, Index := (b.ids + 1) % 2 ^ 64 } : BlockRef).IsZero
          = false := IsZero_false_of_Index_ne_zero _ (by simp only [hmod]; omega)
      rw [GetBlock_stored_eq S _ z ctx1 i
        { toINodeRef := inode, Index := (b.ids + 1) % 2 ^ 64 } s1 h0 ?_ hnz rfl, hg]
      by_cases hlen : i = (b.blocks.length : Int)
      · have : i.toNat = b.blocks.length := by omega
        simp [hlen]
      · have : i.toNat < b.blocks.length := by omega
        simp only [if_neg hlen]
        rw [List.getElem?_set_self this]
    · rw [PutBlock_fail_eq S b ctx inode i data s s1 e hi1 hs hw] at hput
      cases hput

/-- Witness for C1: a fresh blockset on the in-memory store, one append read back. -/
theorem C1_read_after_write_witness :
    (GetBlock (memStore 4)
        (PutBlock (memStore 4) (newBaseBlockset (memStore 4) (some [])) 0
          { Volume := 1, INode := 7 } 0 [1, 2, 3, 4]).b
        (fun _ => 0) 0 0).out = .ok (.stored [1, 2, 3, 4]) :=
  C1_read_after_write (memStore 4) (memStore_readsBackWrites 4)
    (newBaseBlockset (memStore 4) (some [])) (fun _ => 0) 0 0 { Volume := 1, INode := 7 } 0
    [1, 2, 3, 4] (by decide) (by decide) (by decide) (by rfl)

/-! ## The zeroing loop over the package-level scratch array -/

/-- When the range fits in `zeroes`, the loop zeroes exactly `[i, i + n)` and does not panic. -/
theorem zeroFill_fits (n : Nat) : ∀ (i : Nat) (z : Scratch), i + n ≤ zeroesLen →
    zeroFill n i z = (fun k => if i ≤ k ∧ k < i + n then 0 else z k, false) := by
  induction n with
  | zero =>
    intro i z _
    simp only [zeroFill, Prod.mk.injEq, and_true]
    funext k
    rw [if_neg (by omega)]
  | succ n ih =>
    intro i z h
    simp only [zeroFill]
    rw [if_pos (by omega), ih (i + 1) _ (by omega)]
    simp only [Prod.mk.injEq, and_true]
    funext k
    by_cases hk : k = i
    · subst hk
      rw [if_neg (by omega), if_pos (by omega)]
      simp
    · rw [Function.update_noteq hk]
      by_cases hk1 : i + 1 ≤ k ∧ k < i + 1 + n
      · rw [if_pos hk1, if_pos (by omega)]
      · rw [if_neg hk1, if_neg (by omega)]

/-- When the range does not fit in `zeroes`, the loop panics. -/
theorem zeroFill_overflows (n : Nat) : ∀ (i : Nat) (z : Scratch), i ≤ zeroesLen →
    zeroesLen < i + n → (zeroFill n i z).2 = true := by
  induction n with
  | zero =>
    intro i z h1 h2
    omega
  | succ n ih =>
    intro i z h1 h2
    simp only [zeroFill]
    by_cases hi : i < zeroesLen
    · rw [if_pos hi]
      exact ih (i + 1) _ (by omega) (by omega)
    · rw [if_neg hi]

/-- The first `n` bytes after a zeroing loop over `[0, n)` are all zero. -/
theorem bytes_after_zeroFill (n : Nat) (z : Scratch) :
    Buf.bytes (fun k => if 0 ≤ k ∧ k < 0 + n then 0 else z k) (.zeroesSlice n)
      = List.replicate n 0 := by
  simp only [Buf.bytes]
  rw [List.eq_replicate_iff]
  refine ⟨by simp, ?_⟩
  intro x hx
  rcases List.mem_map.mp hx with ⟨k, hk, rfl⟩
  have : k < n := List.mem_range.mp hk
  rw [if_pos (by omega)]

/-- A read of an in-range zero-sentinel entry, when the block size fits in `zeroes`. -/
theorem GetBlock_zero_eq {σ : Type} (S : BlockStore σ) (b : baseBlockset σ) (z : Scratch)
    (ctx : Context) (i : Int) (r : BlockRef)
    (h0 : 0 ≤ i) (hr : b.blocks[i.toNat]? = some r) (hz : r.IsZero = true)
    (hsize : b.blocksize ≤ zeroesLen) :
    GetBlock S b z ctx i =
      ⟨b, fun k => if 0 ≤ k ∧ k < 0 + b.blocksize then 0 else z k,
        .ok (.zeroesSlice b.blocksize), []⟩ := by
  have hlt : i.toNat < b.blocks.length := by
    rcases List.getElem?_eq_some_iff.mp hr with ⟨h, _⟩
    exact h
  unfold GetBlock
  rw [if_neg (by omega), index?_eq_getElem? _ _ h0, hr]
  simp only [hz, if_true]
  rw [zeroFill_fits b.blocksize 0 z (by omega)]

/-- A read of an in-range zero-sentinel entry panics when the block size exceeds `zeroes`. -/
theorem GetBlock_zero_panics {σ : Type} (S : BlockStore σ) (b : baseBlockset σ) (z : Scratch)
    (ctx : Context) (i : Int) (r : BlockRef)
    (h0 : 0 ≤ i) (hr : b.blocks[i.toNat]? = some r) (hz : r.IsZero = true)
    (hsize : zeroesLen < b.blocksize) :
    (GetBlock S b z ctx i).out = .panic .zeroesIndex := by
  have hlt : i.toNat < b.blocks.length := by
    rcases List.getElem?_eq_some_iff.mp hr with ⟨h, _⟩
    exact h
  unfold GetBlock
  rw [if_neg (by omega), index?_eq_getElem? _ _ h0, hr]
  simp only [hz, if_true]
  have hp := zeroFill_overflows b.blocksize 0 z (by omega) (by omega)
  rcases hzf : zeroFill b.blocksize 0 z with ⟨z1, flag⟩
  rw [hzf] at hp
  simp only at hp
  subst hp
  rfl

/-! ## C2: sparse read -/

/-- C2, as stated, fails: on a store whose block size is one byte more than the
package-level `zeroes` array (1048577), a fresh blockset extended by `Truncate(1)`
has a zero-sentinel entry at index 0, and `GetBlock(0)` panics on `zeroes[1048576]`
instead of returning a zero buffer. -/
theorem C2_sparse_read_oversized_block_panics :
    (Truncate (newBaseBlockset (memStore 1048577) (some [])) 1 1048577).b.blocks = [ZeroBlock] ∧
    (Truncate (newBaseBlockset (memStore 1048577) (some [])) 1 1048577).b.blocksize
      = (memStore 1048577).BlockSize [] ∧
    (GetBlock (memStore 1048577)
      (Truncate (newBaseBlockset (memStore 1048577) (some [])) 1 1048577).b
      (fun _ => 0) 0 0).out = .panic .zeroesIndex ∧
    ¬ ∃ buf, (GetBlock (memStore 1048577)
      (Truncate (newBaseBlockset (memStore 1048577) (some [])) 1 1048577).b
      (fun _ => 0) 0 0).out = .ok buf := by
  have hp : (GetBlock (memStore 1048577)
      (Truncate (newBaseBlockset (memStore 1048577) (some [])) 1 1048577).b
      (fun _ => 0) 0 0).out = .panic .zeroesIndex :=
    GetBlock_zero_panics _ _ _ 0 0 ZeroBlock (by decide) rfl rfl (by decide)
  refine ⟨rfl, rfl, hp, ?_⟩
  rintro ⟨buf, hbuf⟩
  rw [hp] at hbuf
  cases hbuf

/-- C2 (amended). Sparse read: when the block size cached from the bound store is
at most 1048576 (the length of `zeroes`), `GetBlock` on an index `0 <= i < Length()`
whose entry `r` is the zero sentinel returns, with no error, a buffer of exactly
`blocksize` bytes, all zero; it issues no store call, leaves the blockset as it
was, and gives the same result for any other bound store or no store at all.
`blocksize` is the value of the store's `BlockSize()` read when the store was bound. -/
theorem C2_sparse_read {σ : Type} (S : BlockStore σ) (b : baseBlockset σ) (z : Scratch)
    (ctx : Context) (i : Int) (r : BlockRef)
    (h0 : 0 ≤ i) (hr : index? b.blocks i = some r)
    (hz : r.IsZero = true) (hsize : b.blocksize ≤ zeroesLen) :
    (∃ buf, (GetBlock S b z ctx i).out = .ok buf ∧
      (Buf.bytes (GetBlock S b z ctx i).zeroes buf).length = b.blocksize ∧
      Buf.bytes (GetBlock S b z ctx i).zeroes buf = List.replicate b.blocksize 0) ∧
    (GetBlock S b z ctx i).calls = [] ∧
    (GetBlock S b z ctx i).b = b ∧
    (∀ (τ : Type) (T : BlockStore τ) (t : Option τ),
      (GetBlock T { ids := b.ids, blocks := b.blocks, store := t, blocksize := b.blocksize }
          z ctx i).out = (GetBlock S b z ctx i).out ∧
      (GetBlock T { ids := b.ids, blocks := b.blocks, store := t, blocksize := b.blocksize }
          z ctx i).zeroes = (GetBlock S b z ctx i).zeroes) ∧
    ∀ s : σ, (newBaseBlockset S (some s)).blocksize = S.BlockSize s ∧
      (setStore S b s).blocksize = S.BlockSize s := by
  rw [index?_eq_getElem? _ _ h0] at hr
  rw [GetBlock_zero_eq S b z ctx i r h0 hr hz hsize]
  refine ⟨⟨.zeroesSlice b.blocksize, rfl, ?_, bytes_after_zeroFill _ _⟩, rfl, rfl, ?_,
    fun _ => ⟨rfl, rfl⟩⟩
  · rw [bytes_after_zeroFill, List.length_replicate]
  · intro τ T t
    rw [GetBlock_zero_eq T _ z ctx i r h0 hr hz hsize]
    exact ⟨rfl, rfl⟩

/-- Witness for C2: block size 4, one zero-sentinel entry. -/
theorem C2_sparse_read_witness :
    ∃ buf, (GetBlock (memStore 4)
        { ids := 0, blocks := [ZeroBlock], store := some [], blocksize := 4 }
        (fun _ => 9) 0 0).out = .ok buf ∧
      Buf.bytes (GetBlock (memStore 4)
        { ids := 0, blocks := [ZeroBlock], store := some [], blocksize := 4 }
        (fun _ => 9) 0 0).zeroes buf = [0, 0, 0, 0] := by
  obtain ⟨⟨buf, h1, _, h3⟩, _⟩ := C2_sparse_read (memStore 4)
    { ids := 0, blocks := [ZeroBlock], store := some [], blocksize := 4 }
    (fun _ => 9) 0 0 ZeroBlock (by decide) rfl rfl (by decide)
  exact ⟨buf, h1, h3⟩

/-! ## C3, C4: index-range violations -/

/-- A `PutBlock` past the end returns `BlockNotExist` and does nothing else. -/
theorem PutBlock_past_end_eq {σ : Type} (S : BlockStore σ) (b : baseBlockset σ) (ctx : Context)
    (inode : INodeRef) (i : Int) (data : List Byte) (hi : (b.blocks.length : Int) < i) :
    PutBlock S b ctx inode i data = ⟨b, .error .BlockNotExist, []⟩ := by
  unfold PutBlock
  rw [if_pos hi]

/-- A `GetBlock` at or past the end returns `BlockNotExist` and does nothing else. -/
theorem GetBlock_past_end_eq {σ : Type} (S : BlockStore σ) (b : baseBlockset σ) (z : Scratch)
    (ctx : Context) (i : Int) (hi : (b.blocks.length : Int) ≤ i) :
    GetBlock S b z ctx i = ⟨b, z, .error .BlockNotExist, []⟩ := by
  unfold GetBlock
  rw [if_pos hi]

/-- C3. `PutBlock` with `i > Length()` returns `BlockNotExist`; afterwards
`Length()`, the whole reference sequence, the allocation counter and the store
are what they were, and no call was issued to the store. -/
theorem C3_put_past_end {σ : Type} (S : BlockStore σ) (b : baseBlockset σ) (ctx : Context)
    (inode : INodeRef) (i : Int) (data : List Byte) (hi : i > Length b) :
    (PutBlock S b ctx inode i data).out = .error .BlockNotExist ∧
    Length (PutBlock S b ctx inode i data).b = Length b ∧
    (PutBlock S b ctx inode i data).b.blocks = b.blocks ∧
    (PutBlock S b ctx inode i data).b.ids = b.ids ∧
    (PutBlock S b ctx inode i data).b.store = b.store ∧
    (PutBlock S b ctx inode i data).calls = [] := by
  rw [PutBlock_past_end_eq S b ctx inode i data hi]
  exact ⟨rfl, rfl, rfl, rfl, rfl, rfl⟩

/-- Witness for C3: index 2 on a one-entry blockset. -/
theorem C3_put_past_end_witness :
    (PutBlock (memStore 4)
        { ids := 1, blocks := [{ Volume := 1, INode := 7, Index := 1 }], store := some [],
          blocksize := 4 } 0 { Volume := 1, INode := 7 } 2 [1, 2, 3, 4]).out
      = .error .BlockNotExist :=
  (C3_put_past_end (memStore 4)
    { ids := 1, blocks := [{ Volume := 1, INode := 7, Index := 1 }], store := some [],
      blocksize := 4 } 0 { Volume := 1, INode := 7 } 2 [1, 2, 3, 4] (by decide)).1

/-- C4, as stated, fails for negative indices: on a one-entry blockset
`GetBlock(-1)` panics on `b.blocks[-1]` instead of returning `BlockNotExist`, and
`PutBlock(-1)` takes an id, writes the block to the store and then panics on
`b.blocks[-1] = newBlockID`. -/
theorem C4_negative_index_panics :
    (GetBlock (memStore 4)
        { ids := 1, blocks := [{ Volume := 1, INode := 7, Index := 1 }], store := some [],
          blocksize := 4 } (fun _ => 0) 0 (-1)).out = .panic .blocksIndex ∧
    (PutBlock (memStore 4)
        { ids := 1, blocks := [{ Volume := 1, INode := 7, Index := 1 }], store := some [],
          blocksize := 4 } 0 { Volume := 1, INode := 7 } (-1) [1, 2, 3, 4]).out
      = .panic .blocksIndex ∧
    (PutBlock (memStore 4)
        { ids := 1, blocks := [{ Volume := 1, INode := 7, Index := 1 }], store := some [],
          blocksize := 4 } 0 { Volume := 1, INode := 7 } (-1) [1, 2, 3, 4]).calls
      = [.writeBlock 0 { Volume := 1, INode := 7, Index := 2 } [1, 2, 3, 4]] := by
  refine ⟨?_, ?_, ?_⟩ <;> rfl

/-- C4 (amended). For a non-negative index, range violations are reported as
`BlockNotExist`: `GetBlock` with `i >= Length()` and `PutBlock` with `i > Length()`
return `BlockNotExist` without touching the blockset or the store, and neither
call ever panics on an access of the reference sequence. -/
theorem C4_index_range {σ : Type} (S : BlockStore σ) (b : baseBlockset σ) (z : Scratch)
    (ctx : Context) (inode : INodeRef) (i : Int) (data : List Byte) (h0 : 0 ≤ i) :
    (i ≥ Length b → GetBlock S b z ctx i = ⟨b, z, .error .BlockNotExist, []⟩) ∧
    (i > Length b → PutBlock S b ctx inode i data = ⟨b, .error .BlockNotExist, []⟩) ∧
    (GetBlock S b z ctx i).out ≠ .panic .blocksIndex ∧
    (GetBlock S b z ctx i).out ≠ .panic .blocksSlice ∧
    (PutBlock S b ctx inode i data).out ≠ .panic .blocksIndex ∧
    (PutBlock S b ctx inode i data).out ≠ .panic .blocksSlice := by
  refine ⟨fun h => GetBlock_past_end_eq S b z ctx i h,
    fun h => PutBlock_past_end_eq S b ctx inode i data h, ?_⟩
  have hget : ∀ k, k = PanicKind.blocksIndex ∨ k = PanicKind.blocksSlice →
      (GetBlock S b z ctx i).out ≠ .panic k := by
    intro k hk
    by_cases hlen : (b.blocks.length : Int) ≤ i
    · rw [GetBlock_past_end_eq S b z ctx i hlen]
      simp
    · have hlt : i.toNat < b.blocks.length := by omega
      have hr : b.blocks[i.toNat]? = some (b.blocks[i.toNat]) := List.getElem?_eq_getElem hlt
      cases hz : (b.blocks[i.toNat]).IsZero with
      | true =>
        unfold GetBlock
        rw [if_neg (by omega), index?_eq_getElem? _ _ h0, hr]
        simp only [hz, if_true]
        rcases zeroFill b.blocksize 0 z with ⟨z1, _ | _⟩
        · simp
        · rcases hk with rfl | rfl <;> simp
      | false =>
        cases hs : b.store with
        | none =>
          unfold GetBlock
          rw [if_neg (by omega), index?_eq_getElem? _ _ h0, hr]
          simp only [hz, hs, Bool.false_eq_true, if_false]
          rcases hk with rfl | rfl <;> simp
        | some s =>
          rw [GetBlock_stored_eq S b z ctx i _ s h0 hr hz hs]
          rcases S.GetBlock s ctx (b.blocks[i.toNat]) with ⟨s1, bytes, _ | e⟩ <;> simp
  have hput : ∀ k, k = PanicKind.blocksIndex ∨ k = PanicKind.blocksSlice →
      (PutBlock S b ctx inode i data).out ≠ .panic k := by
    intro k hk
    by_cases hlen : (b.blocks.length : Int) < i
    · rw [PutBlock_past_end_eq S b ctx inode i data hlen]
      simp
    · cases hs : b.store with
      | none =>
        rw [PutBlock_nil_eq S b ctx inode i data (by omega) hs]
        rcases hk with rfl | rfl <;> simp
      | some s =>
        rcases hw : S.WriteBlock s ctx
          { toINodeRef := inode, Index := (b.ids + 1) % 2 ^ 64 } data with ⟨s1, _ | e⟩
        · rw [PutBlock_ok_eq S b ctx inode i data s s1 h0 (by omega) hs hw]
          simp
        · rw [PutBlock_fail_eq S b ctx inode i data s s1 e (by omega) hs hw]
          simp
  exact ⟨hget _ (Or.inl rfl), hget _ (Or.inr rfl), hput _ (Or.inl rfl), hput _ (Or.inr rfl)⟩

/-- Witness for C4: index 1 on a one-entry blockset is reported by `GetBlock`. -/
theorem C4_index_range_witness :
    (GetBlock (memStore 4)
        { ids := 1, blocks := [{ Volume := 1, INode := 7, Index := 1 }], store := some [],
          blocksize := 4 } (fun _ => 0) 0 1).out = .error .BlockNotExist :=
  congrArg GetResult.out ((C4_index_range (memStore 4)
    { ids := 1, blocks := [{ Volume := 1, INode := 7, Index := 1 }], store := some [],
      blocksize := 4 } (fun _ => 0) 0 { Volume := 1, INode := 7 } 1 [1, 2, 3, 4]
    (by decide)).1 (by decide))

/-! ## C5, C6: the effect of a `PutBlock` in range -/

/-- C5, as stated, fails at the top of the counter: with `ids = 2^64 - 1` a failed
store write leaves the counter at 0, not at `ids + 1`. -/
theorem C5_burned_id_wraps :
    (PutBlock (failStore 4 (.other 5))
        { ids := 18446744073709551615, blocks := [], store := some (), blocksize := 4 }
        0 { Volume := 1, INode := 7 } 0 [1, 2, 3, 4]).out = .error (.other 5) ∧
    (PutBlock (failStore 4 (.other 5))
        { ids := 18446744073709551615, blocks := [], store := some (), blocksize := 4 }
        0 { Volume := 1, INode := 7 } 0 [1, 2, 3, 4]).b.ids = 0 ∧
    (PutBlock (failStore 4 (.other 5))
        { ids := 18446744073709551615, blocks := [], store := some (), blocksize := 4 }
        0 { Volume := 1, INode := 7 } 0 [1, 2, 3, 4]).b.ids ≠ 18446744073709551615 + 1 := by
  refine ⟨rfl, rfl, ?_⟩
  decide

/-- C5 (amended). Store failure on write: for an index `i <= Length()`, if the
`WriteBlock` that `PutBlock` issues fails with error `e`, then `PutBlock` returns
exactly `e`, the reference sequence is unchanged, and the allocation counter has
become `(ids + 1) mod 2^64`, which is `ids + 1` whenever `ids < 2^64 - 1`; the id is
burned: the next `PutBlock` in range hands the store a reference with a different
sequence index. -/
theorem C5_store_write_failure {σ : Type} (S : BlockStore σ) (b : baseBlockset σ)
    (ctx : Context) (inode : INodeRef) (i : Int) (data : List Byte) (s s1 : σ) (e : Error)
    (hi : i ≤ Length b) (hs : b.store = some s)
    (hw : S.WriteBlock s ctx (makeID b inode).2 data = (s1, some e)) :
    (PutBlock S b ctx inode i data).out = .error e ∧
    (PutBlock S b ctx inode i data).b.blocks = b.blocks ∧
    Length (PutBlock S b ctx inode i data).b = Length b ∧
    (PutBlock S b ctx inode i data).b.ids = (b.ids + 1) % 2 ^ 64 ∧
    (b.ids < 2 ^ 64 - 1 → (PutBlock S b ctx inode i data).b.ids = b.ids + 1) ∧
    ∀ (ctx2 : Context) (inode2 : INodeRef) (i2 : Int) (data2 : List Byte), i2 ≤ Length b →
      ∃ ref : BlockRef,
        (PutBlock S (PutBlock S b ctx inode i data).b ctx2 inode2 i2 data2).calls
          = [.writeBlock ctx2 ref data2] ∧
        ref.Index ≠ (makeID b inode).2.Index := by
  have hi1 : i ≤ (b.blocks.length : Int) := hi
  rw [PutBlock_fail_eq S b ctx inode i data s s1 e hi1 hs hw]
  refine ⟨rfl, rfl, rfl, rfl, fun h => Nat.mod_eq_of_lt (by omega), ?_⟩
  intro ctx2 inode2 i2 data2 hi2
  have hi3 : i2 ≤ (b.blocks.length : Int) := hi2
  refine ⟨{ toINodeRef := inode2, Index := ((b.ids + 1) % 2 ^ 64 + 1) % 2 ^ 64 }, ?_, ?_⟩
  · rcases hw2 : S.WriteBlock s1 ctx2
      { toINodeRef := inode2, Index := ((b.ids + 1) % 2 ^ 64 + 1) % 2 ^ 64 } data2
      with ⟨s2, _ | e2⟩
    · unfold PutBlock
      rw [if_neg (by simpa using hi3)]
      simp only [makeID, hw2]
      split_ifs
      · rfl
      · split <;> rfl
    · exact congrArg OpResult.calls
        (PutBlock_fail_eq S
          { ids := (b.ids + 1) % 2 ^ 64, blocks := b.blocks, store := some s1,
            blocksize := b.blocksize } ctx2 inode2 i2 data2 s1 s2 e2 hi3 rfl hw2)
  · simp only [makeID]
    omega

/-- Witness for C5: a failing store, counter 3. -/
theorem C5_store_write_failure_witness :
    (PutBlock (failStore 4 (.other 5))
        { ids := 3, blocks := [], store := some (), blocksize := 4 }
        0 { Volume := 1, INode := 7 } 0 [1, 2, 3, 4]).out = .error (.other 5) ∧
    (PutBlock (failStore 4 (.other 5))
        { ids := 3, blocks := [], store := some (), blocksize := 4 }
        0 { Volume := 1, INode := 7 } 0 [1, 2, 3, 4]).b.ids = 3 + 1 :=
  ⟨(C5_store_write_failure (failStore 4 (.other 5))
      { ids := 3, blocks := [], store := some (), blocksize := 4 }
      0 { Volume := 1, INode := 7 } 0 [1, 2, 3, 4] () () (.other 5)
      (by decide) rfl rfl).1,
   (C5_store_write_failure (failStore 4 (.other 5))
      { ids := 3, blocks := [], store := some (), blocksize := 4 }
      0 { Volume := 1, INode := 7 } 0 [1, 2, 3, 4] () () (.other 5)
      (by decide) rfl rfl).2.2.2.2.1 (by decide)⟩

/-- C6, as stated, fails at the top of the counter: with `c = 2^64 - 1` a
successful append stores the reference `{inode, 0}`, not `{inode, c + 1}`. -/
theorem C6_stored_index_wraps :
    (PutBlock (memStore 4)
        { ids := 18446744073709551615, blocks := [], store := some [], blocksize := 4 }
        0 { Volume := 1, INode := 7 } 0 [1, 2, 3, 4]).out = .ok () ∧
    (PutBlock (memStore 4)
        { ids := 18446744073709551615, blocks := [], store := some [], blocksize := 4 }
        0 { Volume := 1, INode := 7 } 0 [1, 2, 3, 4]).b.blocks
      = [{ Volume := 1, INode := 7, Index := 0 }] ∧
    (PutBlock (memStore 4)
        { ids := 18446744073709551615, blocks := [], store := some [], blocksize := 4 }
        0 { Volume := 1, INode := 7 } 0 [1, 2, 3, 4]).b.blocks[0]?
      ≠ some { Volume := 1, INode := 7, Index := 18446744073709551615 + 1 } := by
  refine ⟨rfl, rfl, ?_⟩
  decide

/-- C6 (amended). Effect of a successful `PutBlock`: with sequence `s`, counter `c`
and `0 <= i <= len(s)`, if the store write succeeds then the call returns no
error, the one store call is `WriteBlock` of `data` under the reference
`{inode, (c + 1) mod 2^64}` (which is `{inode, c + 1}` whenever `c < 2^64 - 1`), the
new sequence has length `max(len(s), i + 1)`, its entry `i` is that reference, and
every entry `j != i` with `j < len(s)` is as before: an append when `i == len(s)`,
an overwrite of index `i` only otherwise. -/
theorem C6_put_effect {σ : Type} (S : BlockStore σ) (b : baseBlockset σ)
    (ctx : Context) (inode : INodeRef) (i : Int) (data : List Byte) (s s1 : σ)
    (h0 : 0 ≤ i) (hi : i ≤ Length b) (hs : b.store = some s)
    (hw : S.WriteBlock s ctx (makeID b inode).2 data = (s1, none)) :
    (PutBlock S b ctx inode i data).out = .ok () ∧
    (PutBlock S b ctx inode i data).calls
      = [.writeBlock ctx { toINodeRef := inode, Index := (b.ids + 1) % 2 ^ 64 } data] ∧
    (b.ids < 2 ^ 64 - 1 → (b.ids + 1) % 2 ^ 64 = b.ids + 1) ∧
    Length (PutBlock S b ctx inode i data).b = max (Length b) (i + 1) ∧
    (PutBlock S b ctx inode i data).b.blocks[i.toNat]?
      = some { toINodeRef := inode, Index := (b.ids + 1) % 2 ^ 64 } ∧
    (∀ j : Nat, j ≠ i.toNat → j < b.blocks.length →
      (PutBlock S b ctx inode i data).b.blocks[j]? = b.blocks[j]?) ∧
    (i = Length b → (PutBlock S b ctx inode i data).b.blocks
      = b.blocks ++ [{ toINodeRef := inode, Index := (b.ids + 1) % 2 ^ 64 }]) ∧
    (i < Length b → (PutBlock S b ctx inode i data).b.blocks
      = b.blocks.set i.toNat { toINodeRef := inode, Index := (b.ids + 1) % 2 ^ 64 }) := by
  have hi1 : i ≤ (b.blocks.length : Int) := hi
  rw [PutBlock_ok_eq S b ctx inode i data s s1 h0 hi1 hs hw]
  refine ⟨rfl, rfl, fun h => Nat.mod_eq_of_lt (by omega), ?_, ?_, ?_, ?_, ?_⟩
  · simp only [Length]
    by_cases hlen : i = (b.blocks.length : Int)
    · rw [if_pos hlen, List.length_append, List.length_singleton]
      push_cast
      omega
    · rw [if_neg hlen, List.length_set]
      omega
  · by_cases hlen : i = (b.blocks.length : Int)
    · have : i.toNat = b.blocks.length := by omega
      simp [hlen]
    · have : i.toNat < b.blocks.length := by omega
      simp only [if_neg hlen]
      rw [List.getElem?_set_self this]
  · intro j hj hjlt
    by_cases hlen : i = (b.blocks.length : Int)
    · simp only [if_pos hlen]
      rw [List.getElem?_append_left hjlt]
    · simp only [if_neg hlen]
      rw [List.getElem?_set_ne (Ne.symm hj)]
  · intro hlen
    have hlen1 : i = (b.blocks.length : Int) := hlen
    simp only [if_pos hlen1]
  · intro hlt
    have hlt1 : i < (b.blocks.length : Int) := hlt
    simp only [if_neg (by omega : ¬ i = (b.blocks.length : Int))]

/-- Witness for C6: overwriting index 0 of a two-entry blockset. -/
theorem C6_put_effect_witness :
    (PutBlock (memStore 4)
        { ids := 2, blocks := [{ Volume := 1, INode := 7, Index := 1 },
            { Volume := 1, INode := 7, Index := 2 }], store := some [], blocksize := 4 }
        0 { Volume := 1, INode := 8 } 0 [1, 2, 3, 4]).b.blocks
      = [{ Volume := 1, INode := 7, Index := 1 },
          { Volume := 1, INode := 7, Index := 2 }].set 0 { Volume := 1, INode := 8, Index := 3 } :=
  (C6_put_effect (memStore 4)
    { ids := 2, blocks := [{ Volume := 1, INode := 7, Index := 1 },
        { Volume := 1, INode := 7, Index := 2 }], store := some [], blocksize := 4 }
    0 { Volume := 1, INode := 8 } 0 [1, 2, 3, 4] []
    [({ Volume := 1, INode := 8, Index := 3 }, [1, 2, 3, 4])]
    (by decide) (by decide) rfl rfl).2.2.2.2.2.2.2 (by decide)

/-! ## Truncate and Trim: the loops -/

/-- The append loop of `Truncate` adds exactly `toadd` zero sentinels at the end. -/
theorem appendZeroes_eq (toadd : Nat) : ∀ bl : List BlockRef,
    appendZeroes toadd bl = bl ++ List.replicate toadd ZeroBlock := by
  induction toadd with
  | zero =>
    intro bl
    simp [appendZeroes]
  | succ n ih =>
    intro bl
    simp only [appendZeroes]
    rw [ih, List.append_assoc, List.replicate_succ]
    rfl

/-- The loop of `Trim` over a range inside the sequence: it does not panic, keeps
the length, writes the zero sentinel on `[k, k + n)` and nothing else. -/
theorem trimLoop_inside (n : Nat) : ∀ (k : Nat) (bl : List BlockRef), k + n ≤ bl.length →
    (trimLoop n (k : Int) bl).2 = false ∧
    (trimLoop n (k : Int) bl).1.length = bl.length ∧
    ∀ j : Nat, (trimLoop n (k : Int) bl).1[j]?
      = if k ≤ j ∧ j < k + n then some ZeroBlock else bl[j]? := by
  induction n with
  | zero =>
    intro k bl _
    refine ⟨rfl, rfl, ?_⟩
    intro j
    rw [if_neg (by omega)]
    rfl
  | succ n ih =>
    intro k bl h
    have hset : setIndex? bl (k : Int) ZeroBlock = some (bl.set k ZeroBlock) := by
      rw [setIndex?_eq_set _ _ _ (by omega) (by omega)]
      rfl
    have hstep : trimLoop (n + 1) (k : Int) bl
        = trimLoop n ((k + 1 : Nat) : Int) (bl.set k ZeroBlock) := by
      simp only [trimLoop, hset]
      rfl
    obtain ⟨h1, h2, h3⟩ := ih (k + 1) (bl.set k ZeroBlock) (by rw [List.length_set]; omega)
    rw [hstep]
    refine ⟨h1, by rw [h2, List.length_set], ?_⟩
    intro j
    rw [h3 j]
    by_cases hj : j = k
    · subst hj
      rw [if_neg (by omega), if_pos (by omega), List.getElem?_set_self (by omega)]
    · rw [List.getElem?_set_ne (Ne.symm hj)]
      by_cases hj1 : k + 1 ≤ j ∧ j < k + 1 + n
      · rw [if_pos hj1, if_pos (by omega)]
      · rw [if_neg hj1, if_neg (by omega)]

/-- A read of an in-range zero sentinel returns `blocksize` zero bytes when the
block size fits in `zeroes`. -/
theorem GetBlock_reads_zero {σ : Type} (S : BlockStore σ) (b : baseBlockset σ) (z : Scratch)
    (ctx : Context) (i : Int) (h0 : 0 ≤ i) (hr : index? b.blocks i = some ZeroBlock)
    (hsize : b.blocksize ≤ zeroesLen) :
    (GetBlock S b z ctx i).out = .ok (.zeroesSlice b.blocksize) ∧
    Buf.bytes (GetBlock S b z ctx i).zeroes (.zeroesSlice b.blocksize)
      = List.replicate b.blocksize 0 := by
  rw [index?_eq_getElem? _ _ h0] at hr
  rw [GetBlock_zero_eq S b z ctx i ZeroBlock h0 hr IsZero_ZeroBlock hsize]
  exact ⟨rfl, bytes_after_zeroFill _ _⟩

/-! ## C7: Truncate -/

/-- `Truncate` to a length inside the sequence keeps the first `lastIndex` entries. -/
theorem Truncate_shrink_eq {σ : Type} (b : baseBlockset σ) (lastIndex : Int) (bs : Nat)
    (h0 : 0 ≤ lastIndex) (h : lastIndex ≤ (b.blocks.length : Int)) :
    Truncate b lastIndex bs =
      ⟨{ ids := b.ids, blocks := b.blocks.take lastIndex.toNat, store := b.store,
         blocksize := b.blocksize }, .ok (), []⟩ := by
  unfold Truncate
  rw [if_pos h, if_neg (by omega)]

/-- `Truncate` past the end appends `lastIndex - len` zero sentinels. -/
theorem Truncate_extend_eq {σ : Type} (b : baseBlockset σ) (lastIndex : Int) (bs : Nat)
    (h : (b.blocks.length : Int) < lastIndex) :
    Truncate b lastIndex bs =
      ⟨{ ids := b.ids
         blocks := b.blocks
           ++ List.replicate (lastIndex - (b.blocks.length : Int)).toNat ZeroBlock
         store := b.store
         blocksize := b.blocksize }, .ok (), []⟩ := by
  unfold Truncate
  rw [if_neg (by omega), appendZeroes_eq]

/-- The reference sequence after `Truncate(n, _)` with `n >= 0`, entry by entry. -/
theorem Truncate_blocks {σ : Type} (b : baseBlockset σ) (n : Int) (bs : Nat) (hn : 0 ≤ n) :
    (Truncate b n bs).b.blocks.length = n.toNat ∧
    (∀ j : Nat, j < n.toNat → j < b.blocks.length →
      (Truncate b n bs).b.blocks[j]? = b.blocks[j]?) ∧
    (∀ j : Nat, b.blocks.length ≤ j → j < n.toNat →
      (Truncate b n bs).b.blocks[j]? = some ZeroBlock) := by
  by_cases h : n ≤ (b.blocks.length : Int)
  · rw [Truncate_shrink_eq b n bs hn h]
    refine ⟨?_, ?_, ?_⟩
    · simp only [List.length_take]
      omega
    · intro j hj _
      simp only
      rw [List.getElem?_take_of_lt hj]
    · intro j hj1 hj2
      omega
  · rw [Truncate_extend_eq b n bs (by omega)]
    refine ⟨?_, ?_, ?_⟩
    · simp only [List.length_append, List.length_replicate]
      omega
    · intro j _ hj
      simp only
      rw [List.getElem?_append_left hj]
    · intro j hj1 hj2
      simp only
      rw [List.getElem?_append_right hj1, List.getElem?_replicate]
      rw [if_pos (by omega)]

/-- C7, as stated, fails in its read clause: on a store whose block size is
1048577 a fresh blockset extended by `Truncate(2)` holds the zero sentinel at
index 1, and `GetBlock(1)` panics on `zeroes[1048576]` instead of returning a zero
block. -/
theorem C7_truncated_read_oversized_block_panics :
    (Truncate (newBaseBlockset (memStore 1048577) (some [])) 2 1048577).out = .ok () ∧
    index? (Truncate (newBaseBlockset (memStore 1048577) (some [])) 2 1048577).b.blocks 1
      = some ZeroBlock ∧
    (GetBlock (memStore 1048577)
      (Truncate (newBaseBlockset (memStore 1048577) (some [])) 2 1048577).b
      (fun _ => 0) 0 1).out = .panic .zeroesIndex :=
  ⟨rfl, rfl, GetBlock_zero_panics _ _ _ 0 1 ZeroBlock (by decide) rfl rfl (by decide)⟩

/-- C7 (amended). Truncate: for every `n >= 0`, `Truncate(n, _)` returns no error
and afterwards `Length()` is exactly `n`, every index below `min(n, old_length)`
holds the same reference as before, and when `n > old_length` every index in
`[old_length, n)` holds the zero sentinel; `GetBlock` on such an index returns a
zero block of `blocksize` bytes whenever the block size is at most 1048576. -/
theorem C7_truncate {σ : Type} (S : BlockStore σ) (b : baseBlockset σ) (n : Int) (bs : Nat)
    (hn : 0 ≤ n) :
    (Truncate b n bs).out = .ok () ∧
    Length (Truncate b n bs).b = n ∧
    (∀ j : Int, 0 ≤ j → j < min n (Length b) →
      index? (Truncate b n bs).b.blocks j = index? b.blocks j) ∧
    (∀ j : Int, Length b ≤ j → j < n →
      index? (Truncate b n bs).b.blocks j = some ZeroBlock) ∧
    (b.blocksize ≤ zeroesLen → ∀ j : Int, Length b ≤ j → j < n →
      ∀ (z : Scratch) (ctx : Context),
        (GetBlock S (Truncate b n bs).b z ctx j).out = .ok (.zeroesSlice b.blocksize) ∧
        Buf.bytes (GetBlock S (Truncate b n bs).b z ctx j).zeroes (.zeroesSlice b.blocksize)
          = List.replicate b.blocksize 0) := by
  obtain ⟨hlen, hkeep, hzero⟩ := Truncate_blocks b n bs hn
  have hout : (Truncate b n bs).out = .ok () := by
    by_cases h : n ≤ (b.blocks.length : Int)
    · rw [Truncate_shrink_eq b n bs hn h]
    · rw [Truncate_extend_eq b n bs (by omega)]
  have hsz : (Truncate b n bs).b.blocksize = b.blocksize := by
    by_cases h : n ≤ (b.blocks.length : Int)
    · rw [Truncate_shrink_eq b n bs hn h]
    · rw [Truncate_extend_eq b n bs (by omega)]
  have hz : ∀ j : Int, Length b ≤ j → j < n →
      index? (Truncate b n bs).b.blocks j = some ZeroBlock := by
    intro j hj1 hj2
    have hj1n : (b.blocks.length : Int) ≤ j := hj1
    rw [index?_eq_getElem? _ _ (by omega)]
    exact hzero j.toNat (by omega) (by omega)
  refine ⟨hout, ?_, ?_, hz, ?_⟩
  · simp only [Length, hlen]
    omega
  · intro j hj0 hj
    have hjl : j < (b.blocks.length : Int) := lt_of_lt_of_le hj (min_le_right _ _)
    have hjn : j < n := lt_of_lt_of_le hj (min_le_left _ _)
    rw [index?_eq_getElem? _ _ hj0, index?_eq_getElem? _ _ hj0]
    exact hkeep j.toNat (by omega) (by omega)
  · intro hsize j hj1 hj2 z ctx
    have hj1n : (b.blocks.length : Int) ≤ j := hj1
    have := GetBlock_reads_zero S (Truncate b n bs).b z ctx j (by omega) (hz j hj1 hj2)
      (by rw [hsz]; exact hsize)
    rw [hsz] at this
    exact this

/-- Witness for C7: extending a one-entry blockset to length 3. -/
theorem C7_truncate_witness :
    Length (Truncate
      ({ ids := 1, blocks := [{ Volume := 1, INode := 7, Index := 1 }], store := some [],
         blocksize := 4 } : baseBlockset (List (BlockRef × List Byte))) 3 4).b = 3 :=
  (C7_truncate (memStore 4)
    { ids := 1, blocks := [{ Volume := 1, INode := 7, Index := 1 }], store := some [],
      blocksize := 4 } 3 4 (by decide)).2.1

/-! ## C8: Trim -/

/-- `Trim` from an index at or past the end changes nothing. -/
theorem Trim_past_end_eq {σ : Type} (b : baseBlockset σ) (from_ to_ : Int)
    (h : (b.blocks.length : Int) ≤ from_) : Trim b from_ to_ = ⟨b, .ok (), []⟩ := by
  unfold Trim
  rw [if_pos h]

/-- `Trim` from a non-negative index inside the sequence: no error, only the
reference sequence changes, its length is kept, and entry `j` becomes the zero
sentinel exactly when `from <= j < min(to, len)`. -/
theorem Trim_inside_eq {σ : Type} (b : baseBlockset σ) (from_ to_ : Int)
    (h0 : 0 ≤ from_) (h : from_ < (b.blocks.length : Int)) :
    ∃ bl : List BlockRef,
      Trim b from_ to_ =
        ⟨{ ids := b.ids, blocks := bl, store := b.store, blocksize := b.blocksize },
          .ok (), []⟩ ∧
      bl.length = b.blocks.length ∧
      ∀ j : Nat, bl[j]? =
        if from_.toNat ≤ j ∧ (j : Int) < min to_ (b.blocks.length : Int)
        then some ZeroBlock else b.blocks[j]? := by
  have hcast : ((from_.toNat : Nat) : Int) = from_ := Int.toNat_of_nonneg h0
  have hto : (if to_ > (b.blocks.length : Int) then (b.blocks.length : Int) else to_)
      = min to_ (b.blocks.length : Int) := by
    split_ifs with hc
    · rw [min_eq_right (by omega)]
    · rw [min_eq_left (by omega)]
  have hmin1 : min to_ (b.blocks.length : Int) ≤ (b.blocks.length : Int) := min_le_right _ _
  obtain ⟨h1, h2, h3⟩ := trimLoop_inside
    (min to_ (b.blocks.length : Int) - from_).toNat from_.toNat b.blocks (by omega)
  rw [hcast] at h1 h2 h3
  rcases hloop : trimLoop (min to_ (b.blocks.length : Int) - from_).toNat from_ b.blocks
    with ⟨bl, flag⟩
  rw [hloop] at h1 h2 h3
  simp only at h1 h2 h3
  subst h1
  refine ⟨bl, ?_, h2, ?_⟩
  · unfold Trim
    rw [if_neg (by omega)]
    simp only [hto, hloop]
  · intro j
    rw [h3 j]
    by_cases hj : from_.toNat ≤ j ∧ (j : Int) < min to_ (b.blocks.length : Int)
    · rw [if_pos hj, if_pos (by omega)]
    · rw [if_neg hj, if_neg (by omega)]

/-- C8, as stated, fails in its read clause: with block size 1048577, after
`Trim(0, 1)` on a one-entry blockset index 0 holds the zero sentinel, and
`GetBlock(0)` panics on `zeroes[1048576]` instead of returning a zero block. -/
theorem C8_trimmed_read_oversized_block_panics :
    (Trim ({ ids := 1, blocks := [{ Volume := 1, INode := 7, Index := 1 }], store := some [], blocksize := 1048577 } : baseBlockset (List (BlockRef × List Byte))) 0 1).out
      = .ok () ∧
    index? (Trim ({ ids := 1, blocks := [{ Volume := 1, INode := 7, Index := 1 }], store := some [], blocksize := 1048577 } :
        baseBlockset (List (BlockRef × List Byte))) 0 1).b.blocks 0 = some ZeroBlock ∧
    (GetBlock (memStore 1048577)
      (Trim { ids := 1, blocks := [{ Volume := 1, INode := 7, Index := 1 }], store := some [], blocksize := 1048577 } 0 1).b (fun _ => 0) 0 0).out = .panic .zeroesIndex :=
  ⟨rfl, rfl, GetBlock_zero_panics _ _ _ 0 0 ZeroBlock (by decide) rfl rfl (by decide)⟩

/-- C8 (amended). Trim: for every `from >= 0` and every `to`, `Trim(from, to)` returns
no error and leaves the length unchanged; every index in `[from, min(to, old_length))`
holds the zero sentinel, every index outside that range holds the same reference
as before, and nothing at all changes when `from >= Length()`; `GetBlock` on an
index of the trimmed range returns a zero block of `blocksize` bytes whenever the
block size is at most 1048576. -/
theorem C8_trim {σ : Type} (S : BlockStore σ) (b : baseBlockset σ) (from_ to_ : Int)
    (h0 : 0 ≤ from_) :
    (Trim b from_ to_).out = .ok () ∧
    Length (Trim b from_ to_).b = Length b ∧
    (∀ j : Int, from_ ≤ j → j < min to_ (Length b) →
      index? (Trim b from_ to_).b.blocks j = some ZeroBlock) ∧
    (∀ j : Int, ¬ (from_ ≤ j ∧ j < min to_ (Length b)) →
      index? (Trim b from_ to_).b.blocks j = index? b.blocks j) ∧
    (from_ ≥ Length b → (Trim b from_ to_).b.blocks = b.blocks) ∧
    (b.blocksize ≤ zeroesLen → ∀ j : Int, from_ ≤ j → j < min to_ (Length b) →
      ∀ (z : Scratch) (ctx : Context),
        (GetBlock S (Trim b from_ to_).b z ctx j).out = .ok (.zeroesSlice b.blocksize) ∧
        Buf.bytes (GetBlock S (Trim b from_ to_).b z ctx j).zeroes (.zeroesSlice b.blocksize)
          = List.replicate b.blocksize 0) := by
  by_cases hpast : (b.blocks.length : Int) ≤ from_
  · have hmin : min to_ (Length b) ≤ (b.blocks.length : Int) := min_le_right _ _
    rw [Trim_past_end_eq b from_ to_ hpast]
    refine ⟨rfl, rfl, ?_, fun _ _ => rfl, fun _ => rfl, ?_⟩
    · intro j hj1 hj2
      omega
    · intro _ j hj1 hj2
      omega
  · obtain ⟨bl, heq, hlen, hent⟩ := Trim_inside_eq b from_ to_ h0 (by omega)
    rw [heq]
    have hzero : ∀ j : Int, from_ ≤ j → j < min to_ (Length b) →
        index? bl j = some ZeroBlock := by
      intro j hj1 hj2
      rw [index?_eq_getElem? _ _ (by omega), hent j.toNat]
      have : ((j.toNat : Nat) : Int) = j := Int.toNat_of_nonneg (by omega)
      rw [if_pos ⟨by omega, by rw [this]; exact hj2⟩]
    refine ⟨rfl, ?_, hzero, ?_, ?_, ?_⟩
    · simp only [Length, hlen]
    · intro j hj
      by_cases hjneg : j < 0
      · rw [index?_neg _ _ hjneg, index?_neg _ _ hjneg]
      · rw [index?_eq_getElem? _ _ (by omega), index?_eq_getElem? _ _ (by omega),
          hent j.toNat]
        have hcast : ((j.toNat : Nat) : Int) = j := Int.toNat_of_nonneg (by omega)
        rw [if_neg]
        rintro ⟨hj1, hj2⟩
        rw [hcast] at hj2
        exact hj ⟨by omega, hj2⟩
    · intro hge
      have : (b.blocks.length : Int) ≤ from_ := hge
      omega
    · intro hsize j hj1 hj2 z ctx
      exact GetBlock_reads_zero S
        { ids := b.ids, blocks := bl, store := b.store, blocksize := b.blocksize } z ctx j
        (by omega) (hzero j hj1 hj2) hsize

/-- Witness for C8: trimming index 0 of a two-entry blockset. -/
theorem C8_trim_witness :
    Length (Trim
      ({ ids := 2, blocks := [{ Volume := 1, INode := 7, Index := 1 }, { Volume := 1, INode := 7, Index := 2 }], store := some [], blocksize := 4 } :
        baseBlockset (List (BlockRef × List Byte))) 0 1).b = 2 :=
  (C8_trim (memStore 4)
    { ids := 2, blocks := [{ Volume := 1, INode := 7, Index := 1 }, { Volume := 1, INode := 7, Index := 2 }], store := some [], blocksize := 4 }
    0 1 (by decide)).2.1

/-! ## The wire format -/

/-- The slice `buf[i*n : (i+1)*n]` is `n` elements from offset `i*n`. -/
theorem slice_entry {α : Type} (buf : List α) (i n : Nat) :
    slice buf (i * n) ((i + 1) * n) = (buf.drop (i * n)).take n := by
  unfold slice
  have : (i + 1) * n - i * n = n := by
    rw [Nat.succ_mul]
    omega
  rw [this]

/-- Concatenating entries of `n` bytes each gives `count * n` bytes. -/
theorem length_flatten_entries {α : Type} (n : Nat) : ∀ ls : List (List α),
    (∀ l ∈ ls, l.length = n) → ls.flatten.length = ls.length * n := by
  intro ls
  induction ls with
  | nil =>
    intro _
    simp
  | cons l ls ih =>
    intro h
    rw [List.flatten_cons, List.length_append, ih (fun l1 h1 => h l1 (List.mem_cons_of_mem _ h1)),
      h l (List.mem_cons_self _ _), List.length_cons, Nat.succ_mul]
    omega

/-- Entry `i` of a concatenation of `n`-byte entries is the slice `[i*n, (i+1)*n)`. -/
theorem slice_flatten_entries {α : Type} (n : Nat) : ∀ (ls : List (List α)),
    (∀ l ∈ ls, l.length = n) → ∀ i : Nat, ∀ l : List α, ls[i]? = some l →
      slice ls.flatten (i * n) ((i + 1) * n) = l := by
  intro ls
  induction ls with
  | nil =>
    intro _ i l h
    simp at h
  | cons l0 ls ih =>
    intro hall i l h
    have hl0 : l0.length = n := hall l0 (List.mem_cons_self _ _)
    rw [slice_entry, List.flatten_cons]
    cases i with
    | zero =>
      simp only [List.getElem?_cons_zero, Option.some.injEq] at h
      subst h
      rw [Nat.zero_mul, List.drop_zero, ← hl0, List.take_left]
    | succ i =>
      simp only [List.getElem?_cons_succ] at h
      have hoff : (i + 1) * n = l0.length + i * n := by
        rw [hl0, Nat.succ_mul]
        omega
      rw [hoff, List.drop_append, ← slice_entry]
      exact ih (fun l1 h1 => hall l1 (List.mem_cons_of_mem _ h1)) i l h

/-- The loop of `Marshal`, started at entry `i` on a buffer whose first `i` entries
are `pre` and whose remaining bytes are still zero, fills in the encodings of the
remaining references, each written over a zeroed entry. -/
theorem marshalLoop_eq (C : Codec) : ∀ (xs : List BlockRef) (i : Nat) (pre : List Byte),
    pre.length = i * C.BlockRefByteSize →
    marshalLoop C i xs (pre ++ List.replicate (xs.length * C.BlockRefByteSize) 0)
      = pre ++ (xs.map fun x =>
          C.ToBytesBuf x (List.replicate C.BlockRefByteSize 0)).flatten := by
  intro xs
  induction xs with
  | nil =>
    intro i pre _
    simp [marshalLoop]
  | cons x xs ih =>
    intro i pre hpre
    have hsplit : List.replicate ((x :: xs).length * C.BlockRefByteSize) (0 : Byte)
        = List.replicate C.BlockRefByteSize 0
          ++ List.replicate (xs.length * C.BlockRefByteSize) 0 := by
      rw [← List.replicate_add, List.length_cons, Nat.succ_mul, Nat.add_comm]
    have hslice : slice (pre ++ (List.replicate C.BlockRefByteSize (0 : Byte)
          ++ List.replicate (xs.length * C.BlockRefByteSize) 0))
          (i * C.BlockRefByteSize) ((i + 1) * C.BlockRefByteSize)
        = List.replicate C.BlockRefByteSize 0 := by
      rw [slice_entry, ← hpre, List.drop_left]
      rw [List.take_append_of_le_length (by rw [List.length_replicate]),
        List.take_of_length_le (by rw [List.length_replicate])]
    have hpre1 : (pre ++ List.replicate C.BlockRefByteSize (0 : Byte)).length
        = (i + 1) * C.BlockRefByteSize := by
      rw [List.length_append, List.length_replicate, hpre, Nat.succ_mul]
    have hwrite : ∀ new : List Byte,
        writeSlice (pre ++ (List.replicate C.BlockRefByteSize (0 : Byte)
          ++ List.replicate (xs.length * C.BlockRefByteSize) 0))
          (i * C.BlockRefByteSize) ((i + 1) * C.BlockRefByteSize) new
        = (pre ++ new) ++ List.replicate (xs.length * C.BlockRefByteSize) 0 := by
      intro new
      unfold writeSlice
      rw [← hpre, List.take_left, ← List.append_assoc pre, ← hpre1, List.drop_left]
    simp only [marshalLoop]
    rw [hsplit, hslice, hwrite]
    rw [ih (i + 1) (pre ++ C.ToBytesBuf x (List.replicate C.BlockRefByteSize 0))
      (by rw [List.length_append, C.ToBytesBuf_length, List.length_replicate, hpre,
            Nat.succ_mul])]
    rw [List.map_cons, List.flatten_cons, List.append_assoc]

/-- The bytes returned by `Marshal` are the encodings of the references, in order. -/
theorem Marshal_bytes_eq {σ : Type} (C : Codec) (b : baseBlockset σ) :
    (Marshal C b).2.1
      = (b.blocks.map fun x =>
          C.ToBytesBuf x (List.replicate C.BlockRefByteSize 0)).flatten := by
  have h := marshalLoop_eq C b.blocks 0 [] (by simp)
  simpa [Marshal] using h

/-- Every encoding written by `Marshal` has `BlockRefByteSize` bytes. -/
theorem encodings_length (C : Codec) (xs : List BlockRef) :
    ∀ l ∈ xs.map (fun x => C.ToBytesBuf x (List.replicate C.BlockRefByteSize 0)),
      l.length = C.BlockRefByteSize := by
  intro l hl
  rcases List.mem_map.mp hl with ⟨x, _, rfl⟩
  rw [C.ToBytesBuf_length, List.length_replicate]

/-- The sequence decoded by `Unmarshal`, entry by entry. -/
theorem Unmarshal_entry {σ : Type} (C : Codec) (b : baseBlockset σ) (data : List Byte)
    (k : Nat) :
    (Unmarshal C b data).b.blocks[k]? =
      if k < data.length / C.BlockRefByteSize then
        some (C.BlockRefFromBytes
          (slice data (k * C.BlockRefByteSize) ((k + 1) * C.BlockRefByteSize)))
      else none := by
  simp only [Unmarshal, List.getElem?_map]
  by_cases hk : k < data.length / C.BlockRefByteSize
  · rw [if_pos hk, List.getElem?_range hk]
    rfl
  · rw [if_neg hk, List.getElem?_eq_none (by rw [List.length_range]; omega)]
    rfl

/-- C9. Marshal/Unmarshal round trip: `Marshal` returns no error, leaves the
blockset as it was and returns exactly `Length() * BlockRefByteSize` bytes, and
`Unmarshal` on those bytes returns no error and yields a reference sequence equal
to the marshalled one, given that the codec decodes what it encoded for every
entry of the sequence. -/
theorem C9_marshal_unmarshal_round_trip {σ τ : Type} (C : Codec) (b : baseBlockset σ)
    (b0 : baseBlockset τ)
    (hcodec : ∀ r ∈ b.blocks,
      C.BlockRefFromBytes (C.ToBytesBuf r (List.replicate C.BlockRefByteSize 0)) = r) :
    (Marshal C b).2.2 = .ok () ∧
    (Marshal C b).1 = b ∧
    ((Marshal C b).2.1.length : Int) = Length b * (C.BlockRefByteSize : Int) ∧
    (Unmarshal C b0 (Marshal C b).2.1).out = .ok () ∧
    (Unmarshal C b0 (Marshal C b).2.1).b.blocks = b.blocks ∧
    Length (Unmarshal C b0 (Marshal C b).2.1).b = Length b := by
  have hlen : (Marshal C b).2.1.length = b.blocks.length * C.BlockRefByteSize := by
    rw [Marshal_bytes_eq, length_flatten_entries C.BlockRefByteSize _ (encodings_length C _),
      List.length_map]
  have hblocks : (Unmarshal C b0 (Marshal C b).2.1).b.blocks = b.blocks := by
    apply List.ext_getElem?
    intro k
    rw [Unmarshal_entry, hlen, Nat.mul_div_cancel _ C.BlockRefByteSize_pos]
    by_cases hk : k < b.blocks.length
    · rw [if_pos hk, Marshal_bytes_eq,
        slice_flatten_entries C.BlockRefByteSize _ (encodings_length C _) k
          (C.ToBytesBuf (b.blocks[k]) (List.replicate C.BlockRefByteSize 0))
          (by rw [List.getElem?_map, List.getElem?_eq_getElem hk]; rfl),
        hcodec _ (List.getElem_mem hk), List.getElem?_eq_getElem hk]
    · rw [if_neg hk, List.getElem?_eq_none (by omega)]
  refine ⟨rfl, rfl, ?_, rfl, hblocks, ?_⟩
  · rw [hlen]
    simp only [Length]
    push_cast
    rfl
  · simp only [Length, hblocks]

/-- Witness for C9: two references through the sample codec. -/
theorem C9_marshal_unmarshal_round_trip_witness :
    (Unmarshal sampleCodec (newBaseBlockset (memStore 4) none)
      (Marshal sampleCodec
        ({ ids := 2, blocks := [{ Volume := 1, INode := 7, Index := 1 }, ZeroBlock], store := none, blocksize := 4 } : baseBlockset (List (BlockRef × List Byte)))).2.1).b.blocks
      = [{ Volume := 1, INode := 7, Index := 1 }, ZeroBlock] :=
  (C9_marshal_unmarshal_round_trip sampleCodec
    ({ ids := 2, blocks := [{ Volume := 1, INode := 7, Index := 1 }, ZeroBlock], store := none, blocksize := 4 } : baseBlockset (List (BlockRef × List Byte)))
    (newBaseBlockset (memStore 4) none) (by decide)).2.2.2.2.1

/-! ## C10: lenient decode -/

/-- A whole entry of the buffer, read byte by byte. -/
theorem slice_entry_bytes (data : List Byte) (k n : Nat) (h : (k + 1) * n ≤ data.length) :
    slice data (k * n) ((k + 1) * n)
      = (List.range n).map fun j => (data[k * n + j]?).getD 0 := by
  rw [slice_entry]
  have hle : k * n + n ≤ data.length := by
    rw [Nat.succ_mul] at h
    exact h
  apply List.ext_getElem?
  intro j
  rw [List.getElem?_take, List.getElem?_drop, List.getElem?_map]
  by_cases hj : j < n
  · have hlt : k * n + j < data.length := by omega
    rw [if_pos hj, List.getElem?_range hj]
    simp only [Option.map, List.getElem?_eq_getElem hlt, Option.getD_some]
  · rw [if_neg hj, List.getElem?_eq_none (by rw [List.length_range]; omega)]
    rfl

/-- Bytes after the last whole entry do not reach the decoded sequence. -/
theorem Unmarshal_append_tail {σ : Type} (C : Codec) (b : baseBlockset σ)
    (p t : List Byte) (hp : p.length % C.BlockRefByteSize = 0)
    (ht : t.length < C.BlockRefByteSize) :
    (Unmarshal C b (p ++ t)).b.blocks = (Unmarshal C b p).b.blocks := by
  have hmul : p.length / C.BlockRefByteSize * C.BlockRefByteSize = p.length :=
    Nat.div_mul_cancel (Nat.dvd_of_mod_eq_zero hp)
  have hcount : (p ++ t).length / C.BlockRefByteSize = p.length / C.BlockRefByteSize := by
    rw [List.length_append, ← hmul, Nat.add_comm,
      Nat.add_mul_div_right _ _ C.BlockRefByteSize_pos, Nat.div_eq_of_lt ht, Nat.zero_add,
      Nat.mul_div_cancel _ C.BlockRefByteSize_pos]
  apply List.ext_getElem?
  intro k
  rw [Unmarshal_entry, Unmarshal_entry, hcount]
  by_cases hk : k < p.length / C.BlockRefByteSize
  · rw [if_pos hk, if_pos hk]
    have hle : (k + 1) * C.BlockRefByteSize ≤ p.length := by
      rw [← hmul]
      exact Nat.mul_le_mul_right _ hk
    have hle1 : k * C.BlockRefByteSize + C.BlockRefByteSize ≤ p.length := by
      rw [Nat.succ_mul] at hle
      exact hle
    rw [slice_entry, slice_entry, List.drop_append_of_le_length (by omega),
      List.take_append_of_le_length (by rw [List.length_drop]; omega)]
  · rw [if_neg hk, if_neg hk]

/-- C10. Lenient decode: for every byte buffer, `Unmarshal` returns no error and
sets the sequence to exactly `floor(len(data) / BlockRefByteSize)` entries, entry `k`
being the decoding of bytes `[k*BlockRefByteSize, (k+1)*BlockRefByteSize)`; a trailing
partial entry is ignored, so two buffers that differ only in those trailing bytes
decode to the same sequence. -/
theorem C10_lenient_decode {σ : Type} (C : Codec) (b : baseBlockset σ) (data : List Byte) :
    (Unmarshal C b data).out = .ok () ∧
    Length (Unmarshal C b data).b = ((data.length / C.BlockRefByteSize : Nat) : Int) ∧
    (∀ k : Nat, k < data.length / C.BlockRefByteSize →
      (Unmarshal C b data).b.blocks[k]? = some (C.BlockRefFromBytes
        ((List.range C.BlockRefByteSize).map fun j =>
          (data[k * C.BlockRefByteSize + j]?).getD 0))) ∧
    (∀ p t t2 : List Byte, p.length % C.BlockRefByteSize = 0 →
      t.length < C.BlockRefByteSize → t2.length < C.BlockRefByteSize →
      (Unmarshal C b (p ++ t)).b.blocks = (Unmarshal C b (p ++ t2)).b.blocks) := by
  refine ⟨rfl, ?_, ?_, ?_⟩
  · simp [Length, Unmarshal]
  · intro k hk
    rw [Unmarshal_entry, if_pos hk, slice_entry_bytes]
    calc (k + 1) * C.BlockRefByteSize
        ≤ data.length / C.BlockRefByteSize * C.BlockRefByteSize := Nat.mul_le_mul_right _ hk
      _ ≤ data.length := Nat.div_mul_le_self _ _
  · intro p t t2 hp ht ht2
    rw [Unmarshal_append_tail C b p t hp ht, Unmarshal_append_tail C b p t2 hp ht2]

/-- Witness for C10: one whole entry followed by two different partial entries. -/
theorem C10_lenient_decode_witness :
    (Unmarshal sampleCodec (newBaseBlockset (memStore 4) none)
        (encodeRef { Volume := 1, INode := 7, Index := 1 } ++ [1, 2, 3])).b.blocks
      = (Unmarshal sampleCodec (newBaseBlockset (memStore 4) none)
        (encodeRef { Volume := 1, INode := 7, Index := 1 } ++ [9])).b.blocks :=
  (C10_lenient_decode sampleCodec (newBaseBlockset (memStore 4) none) []).2.2.2
    (encodeRef { Volume := 1, INode := 7, Index := 1 }) [1, 2, 3] [9]
    (by decide) (by decide) (by decide)

/-! ## C11: live inodes -/

theorem mem_bitmapAdd (out : Bitmap) (x y : Nat) : y ∈ bitmapAdd out x ↔ y ∈ out ∨ y = x := by
  unfold bitmapAdd
  split_ifs with h
  · constructor
    · intro hy
      exact Or.inl hy
    · rintro (hy | rfl)
      · exact hy
      · exact h
  · simp

/-- What the loop of `GetLiveINodes` leaves in the bitmap. -/
theorem mem_liveLoop : ∀ (blocks : List BlockRef) (out : Bitmap) (x : Nat),
    x ∈ liveLoop blocks out ↔
      x ∈ out ∨ ∃ r ∈ blocks, r.IsZero = false ∧ r.INode % 2 ^ 32 = x := by
  intro blocks
  induction blocks with
  | nil =>
    intro out x
    simp [liveLoop]
  | cons blk rest ih =>
    intro out x
    simp only [liveLoop]
    cases hz : blk.IsZero with
    | true =>
      simp only [if_true, ih, List.mem_cons, exists_eq_or_imp, hz, Bool.true_eq_false,
        false_and, false_or]
    | false =>
      simp only [Bool.false_eq_true, if_false, ih, mem_bitmapAdd, List.mem_cons,
        exists_eq_or_imp, hz, true_and]
      constructor
      · rintro ((h | h) | h)
        · exact Or.inl h
        · exact Or.inr (Or.inl h.symm)
        · exact Or.inr (Or.inr h)
      · rintro (h | h | h)
        · exact Or.inl (Or.inl h)
        · exact Or.inl (Or.inr h.symm)
        · exact Or.inr h

/-- C11, as stated, fails for inode identifiers that do not fit in 32 bits: with
the single entry `{inode 4294967301, index 1}` the bitmap holds 5, which is the
owner inode of no entry, and does not hold 4294967301, which is. -/
theorem C11_live_inodes_truncated :
    GetLiveINodes ({ ids := 1, blocks := [{ Volume := 1, INode := 4294967301, Index := 1 }], store := none, blocksize := 4 } : baseBlockset Unit) = [5] ∧
    ¬ (5 ∈ GetLiveINodes ({ ids := 1, blocks := [{ Volume := 1, INode := 4294967301, Index := 1 }], store := none, blocksize := 4 } : baseBlockset Unit) ↔
      ∃ r ∈ [({ Volume := 1, INode := 4294967301, Index := 1 } : BlockRef)],
        r.IsZero = false ∧ r.INode = 5) ∧
    ¬ ((4294967301 : Nat) ∈ GetLiveINodes ({ ids := 1, blocks := [{ Volume := 1, INode := 4294967301, Index := 1 }], store := none, blocksize := 4 } : baseBlockset Unit) ↔
      ∃ r ∈ [({ Volume := 1, INode := 4294967301, Index := 1 } : BlockRef)],
        r.IsZero = false ∧ r.INode = 4294967301) := by
  refine ⟨by decide, ?_, ?_⟩ <;> decide

/-- C11 (amended). `GetLiveINodes` returns exactly the low 32 bits of the owner-inode
identifiers of the non-zero entries: `x` is in the bitmap iff `x` equals the low 32
bits (the remainder modulo `2^32`) of the owner inode identifier of some entry that
is not the zero sentinel, so every member is below `2^32`; when every owner inode
identifier is below `2^32` this is exactly the set of owner inode identifiers of
the non-zero entries; a sequence that is empty or all zero sentinels yields the
empty set. -/
theorem C11_live_inodes {σ : Type} (b : baseBlockset σ) (x : Nat) :
    (x ∈ GetLiveINodes b ↔ ∃ r ∈ b.blocks, r.IsZero = false ∧ r.INode % 2 ^ 32 = x) ∧
    ((∀ r ∈ b.blocks, r.INode < 2 ^ 32) →
      (x ∈ GetLiveINodes b ↔ ∃ r ∈ b.blocks, r.IsZero = false ∧ r.INode = x)) ∧
    ((∀ r ∈ b.blocks, r.IsZero = true) → GetLiveINodes b = []) ∧
    (x ∈ GetLiveINodes b → x < 2 ^ 32) := by
  have hmem : ∀ y, y ∈ GetLiveINodes b ↔
      ∃ r ∈ b.blocks, r.IsZero = false ∧ r.INode % 2 ^ 32 = y := by
    intro y
    unfold GetLiveINodes
    rw [mem_liveLoop]
    simp
  refine ⟨hmem x, ?_, ?_, ?_⟩
  · intro hsmall
    rw [hmem x]
    constructor
    · rintro ⟨r, hr, hz, hx⟩
      exact ⟨r, hr, hz, by rw [← hx, Nat.mod_eq_of_lt (hsmall r hr)]⟩
    · rintro ⟨r, hr, hz, hx⟩
      exact ⟨r, hr, hz, by rw [← hx, Nat.mod_eq_of_lt (hsmall r hr)]⟩
  · intro hall
    apply List.eq_nil_iff_forall_not_mem.mpr
    intro y hy
    obtain ⟨r, hr, hz, _⟩ := (hmem y).mp hy
    rw [hall r hr] at hz
    cases hz
  · intro hx
    obtain ⟨r, _, _, hrx⟩ := (hmem x).mp hx
    rw [← hrx]
    exact Nat.mod_lt _ (by decide)

/-- Witness for C11: two live inodes and a zero sentinel. -/
theorem C11_live_inodes_witness :
    (7 ∈ GetLiveINodes ({ ids := 2, blocks := [{ Volume := 1, INode := 7, Index := 1 }, ZeroBlock, { Volume := 1, INode := 8, Index := 2 }], store := none, blocksize := 4 } : baseBlockset Unit) ↔
      ∃ r ∈ [({ Volume := 1, INode := 7, Index := 1 } : BlockRef), ZeroBlock, { Volume := 1, INode := 8, Index := 2 }],
        r.IsZero = false ∧ r.INode = 7) :=
  (C11_live_inodes ({ ids := 2, blocks := [{ Volume := 1, INode := 7, Index := 1 }, ZeroBlock, { Volume := 1, INode := 8, Index := 2 }], store := none, blocksize := 4 } : baseBlockset Unit) 7).2.1 (by decide)

/-! ## C12: sequential appends -/

/-- A `PutBlock` that returns no error had its index in `[0, len]`, a bound store
and a successful `WriteBlock`. -/
theorem PutBlock_out_ok {σ : Type} (S : BlockStore σ) (b : baseBlockset σ) (ctx : Context)
    (inode : INodeRef) (i : Int) (data : List Byte)
    (hout : (PutBlock S b ctx inode i data).out = .ok ()) :
    0 ≤ i ∧ i ≤ (b.blocks.length : Int) ∧ ∃ s s1 : σ, b.store = some s ∧
      S.WriteBlock s ctx { toINodeRef := inode, Index := (b.ids + 1) % 2 ^ 64 } data
        = (s1, none) := by
  by_cases hlen : (b.blocks.length : Int) < i
  · rw [PutBlock_past_end_eq S b ctx inode i data hlen] at hout
    cases hout
  · cases hs : b.store with
    | none =>
      rw [PutBlock_nil_eq S b ctx inode i data (by omega) hs] at hout
      cases hout
    | some s =>
      rcases hw : S.WriteBlock s ctx
        { toINodeRef := inode, Index := (b.ids + 1) % 2 ^ 64 } data with ⟨s1, _ | e⟩
      · refine ⟨?_, by omega, s, s1, rfl, hw⟩
        by_contra hneg
        have hne : ¬ i = (b.blocks.length : Int) := by omega
        unfold PutBlock at hout
        rw [if_neg hlen] at hout
        simp only [makeID, hs, hw, if_neg hne, setIndex?_neg _ _ _ (by omega : i < 0)] at hout
        cases hout
      · rw [PutBlock_fail_eq S b ctx inode i data s s1 e (by omega) hs hw] at hout
        cases hout

/-- Sequential appends that all return no error, with room left in the counter:
the references handed to the store are `{inode_k, ids + 1 + k}`, they are appended
in order, and the counter ends at `ids + N`. -/
theorem appendRun_ok {σ : Type} (S : BlockStore σ) :
    ∀ (reqs : List (Context × INodeRef × List Byte)) (b : baseBlockset σ),
      b.ids + reqs.length < 2 ^ 64 →
      (∀ o ∈ (appendRun S b reqs).2.1, o = .ok ()) →
      ∃ refs : List BlockRef,
        refs.length = reqs.length ∧
        (∀ r ∈ refs, b.ids < r.Index) ∧
        refs.Nodup ∧
        (appendRun S b reqs).2.2
          = List.zipWith (fun req ref => StoreCall.writeBlock req.1 ref req.2.2) reqs refs ∧
        (appendRun S b reqs).1.blocks = b.blocks ++ refs := by
  intro reqs
  induction reqs with
  | nil =>
    intro b _ _
    exact ⟨[], rfl, by simp, List.nodup_nil, rfl, by simp [appendRun]⟩
  | cons req rest ih =>
    intro b hids hok
    obtain ⟨ctx, inode, data⟩ := req
    have hlen : (rest.length + 1) = ((ctx, inode, data) :: rest).length := rfl
    rw [List.length_cons] at hids
    have hout : (PutBlock S b ctx inode (Length b) data).out = .ok () :=
      hok _ (by simp [appendRun])
    obtain ⟨h0, hi, s, s1, hs, hw⟩ := PutBlock_out_ok S b ctx inode (Length b) data hout
    have hmod : (b.ids + 1) % 2 ^ 64 = b.ids + 1 := Nat.mod_eq_of_lt (by omega)
    have heq := PutBlock_ok_eq S b ctx inode (Length b) data s s1 h0 hi hs hw
    have hL : Length b = (b.blocks.length : Int) := rfl
    rw [if_pos hL, hmod] at heq
    rw [hmod] at hw
    have hok1 : ∀ o ∈ (appendRun S (PutBlock S b ctx inode (Length b) data).b rest).2.1,
        o = .ok () := fun o ho => hok o (by simp [appendRun, ho])
    rw [heq] at hok1
    obtain ⟨refs, hl, hgt, hnd, hcalls, hblocks⟩ := ih _ (by simp only; omega) hok1
    refine ⟨{ toINodeRef := inode, Index := b.ids + 1 } :: refs, ?_, ?_, ?_, ?_, ?_⟩
    · rw [List.length_cons, hl, List.length_cons]
    · intro r hr
      rcases List.mem_cons.mp hr with rfl | hr
      · simp
      · have := hgt r hr
        simp only at this
        omega
    · refine List.nodup_cons.mpr ⟨?_, hnd⟩
      intro hmem
      have := hgt _ hmem
      simp only at this
      omega
    · simp only [appendRun, heq, hcalls, List.zipWith_cons_cons, List.singleton_append]
    · simp only [appendRun, heq, hblocks, List.append_assoc, List.singleton_append]

/-- C12. N sequential appends: with `counter + N < 2^64`, N `PutBlock` calls one after
another, each at index `Length()` and each returning no error, hand N pairwise
distinct references to the store, store them in order at the end of the sequence,
and leave `Length()` at the length before the calls plus N. -/
theorem C12_sequential_appends {σ : Type} (S : BlockStore σ) (b : baseBlockset σ)
    (reqs : List (Context × INodeRef × List Byte))
    (hids : b.ids + reqs.length < 2 ^ 64)
    (hok : ∀ o ∈ (appendRun S b reqs).2.1, o = .ok ()) :
    ∃ refs : List BlockRef,
      refs.length = reqs.length ∧
      refs.Nodup ∧
      (appendRun S b reqs).2.2
        = List.zipWith (fun req ref => StoreCall.writeBlock req.1 ref req.2.2) reqs refs ∧
      (appendRun S b reqs).1.blocks = b.blocks ++ refs ∧
      Length (appendRun S b reqs).1 = Length b + (reqs.length : Int) := by
  obtain ⟨refs, hl, _, hnd, hcalls, hblocks⟩ := appendRun_ok S reqs b hids hok
  refine ⟨refs, hl, hnd, hcalls, hblocks, ?_⟩
  simp only [Length, hblocks, List.length_append, hl]
  push_cast
  rfl

/-- Witness for C12: three appends on the in-memory store. -/
theorem C12_sequential_appends_witness :
    ∃ refs : List BlockRef,
      refs.length = 3 ∧ refs.Nodup ∧
      (appendRun (memStore 4) (newBaseBlockset (memStore 4) (some []))
        [(0, { Volume := 1, INode := 7 }, [1, 2, 3, 4]), (0, { Volume := 1, INode := 7 }, [5, 6, 7, 8]), (0, { Volume := 1, INode := 8 }, [1, 2, 3, 4])]).1.blocks = [] ++ refs := by
  obtain ⟨refs, h1, h2, _, h4, _⟩ := C12_sequential_appends (memStore 4)
    (newBaseBlockset (memStore 4) (some []))
    [(0, { Volume := 1, INode := 7 }, [1, 2, 3, 4]), (0, { Volume := 1, INode := 7 }, [5, 6, 7, 8]), (0, { Volume := 1, INode := 8 }, [1, 2, 3, 4])]
    (by decide) (by decide)
  exact ⟨refs, h1, h2, h4⟩

/-! ## C13: the zero sentinel and the counter -/

/-- After a `PutBlock` that returned no error, entry `i` is the new reference and
the store is bound. -/
theorem PutBlock_ok_entry {σ : Type} (S : BlockStore σ) (b : baseBlockset σ) (ctx : Context)
    (inode : INodeRef) (i : Int) (data : List Byte)
    (hout : (PutBlock S b ctx inode i data).out = .ok ()) :
    0 ≤ i ∧
    (PutBlock S b ctx inode i data).b.blocks[i.toNat]?
      = some { toINodeRef := inode, Index := (b.ids + 1) % 2 ^ 64 } ∧
    ∃ s1 : σ, (PutBlock S b ctx inode i data).b.store = some s1 := by
  obtain ⟨h0, hi, s, s1, hs, hw⟩ := PutBlock_out_ok S b ctx inode i data hout
  rw [PutBlock_ok_eq S b ctx inode i data s s1 h0 hi hs hw]
  refine ⟨h0, ?_, s1, rfl⟩
  by_cases hlen : i = (b.blocks.length : Int)
  · have : i.toNat = b.blocks.length := by omega
    simp [hlen]
  · have : i.toNat < b.blocks.length := by omega
    simp only [if_neg hlen]
    rw [List.getElem?_set_self this]

/-- C13, as stated, fails when the counter wraps on the all-zero inode reference:
with `ids = 2^64 - 1`, `makeID` returns the zero sentinel, and the block `[1, 2, 3, 4]`
stored by a successful `PutBlock` is read back as a sparse zero block. -/
theorem C13_wrapped_id_is_zero_sentinel :
    (makeID ({ ids := 18446744073709551615, blocks := [], store := some [], blocksize := 4 } : baseBlockset (List (BlockRef × List Byte))) { Volume := 0, INode := 0 }).2 = ZeroBlock ∧
    (makeID ({ ids := 18446744073709551615, blocks := [], store := some [], blocksize := 4 } : baseBlockset (List (BlockRef × List Byte))) { Volume := 0, INode := 0 }).2.IsZero = true ∧
    (PutBlock (memStore 4) { ids := 18446744073709551615, blocks := [], store := some [], blocksize := 4 } 0 { Volume := 0, INode := 0 } 0 [1, 2, 3, 4]).out = .ok () ∧
    (GetBlock (memStore 4) (PutBlock (memStore 4) { ids := 18446744073709551615, blocks := [], store := some [], blocksize := 4 } 0 { Volume := 0, INode := 0 } 0 [1, 2, 3, 4]).b (fun _ => 0) 0 0).out = .ok (.zeroesSlice 4) ∧
    (GetBlock (memStore 4) (PutBlock (memStore 4) { ids := 18446744073709551615, blocks := [], store := some [], blocksize := 4 } 0 { Volume := 0, INode := 0 } 0 [1, 2, 3, 4]).b (fun _ => 0) 0 0).read = .ok [0, 0, 0, 0] := by
  refine ⟨rfl, rfl, rfl, rfl, rfl⟩

/-- C13 (amended). `makeID` returns the zero sentinel exactly when the increment
wraps to 0 (the counter was `2^64 - 1`) and the inode reference is all zero; in
every other case the returned reference is not the zero sentinel, and a block
stored by a successful `PutBlock` is read back from the store, never as a sparse
zero block. -/
theorem C13_makeID_not_zero {σ : Type} (S : BlockStore σ) (b : baseBlockset σ)
    (inode : INodeRef)
    (h : (b.ids + 1) % 2 ^ 64 ≠ 0 ∨ inode ≠ { Volume := 0, INode := 0 }) :
    (makeID b inode).2.IsZero = false ∧
    ((makeID b inode).2.toINodeRef = inode ∧ (makeID b inode).2.Index = (b.ids + 1) % 2 ^ 64) ∧
    ∀ (ctx ctx1 : Context) (i : Int) (data : List Byte) (z : Scratch),
      (PutBlock S b ctx inode i data).out = .ok () →
        (GetBlock S (PutBlock S b ctx inode i data).b z ctx1 i).calls
          = [.getBlock ctx1 (makeID b inode).2] := by
  have hnz : ({ toINodeRef := inode, Index := (b.ids + 1) % 2 ^ 64 } : BlockRef).IsZero
      = false := by
    rcases h with h | h
    · exact IsZero_false_of_Index_ne_zero _ h
    · rcases inode with ⟨v, n⟩
      have hvn : ¬ (v = 0 ∧ n = 0) := by
        rintro ⟨rfl, rfl⟩
        exact h rfl
      unfold BlockRef.IsZero
      simp only [beq_iff_eq, Bool.and_eq_false_imp, Bool.and_eq_true]
      intro hv
      exact absurd hv hvn
  refine ⟨hnz, ⟨rfl, rfl⟩, ?_⟩
  intro ctx ctx1 i data z hout
  obtain ⟨h0, hentry, s1, hs1⟩ := PutBlock_ok_entry S b ctx inode i data hout
  rw [GetBlock_stored_eq S _ z ctx1 i _ s1 h0 hentry hnz hs1]
  rcases S.GetBlock s1 ctx1 { toINodeRef := inode, Index := (b.ids + 1) % 2 ^ 64 }
    with ⟨s2, bytes, _ | e⟩ <;> rfl

/-- Witness for C13: the counter wraps to 0 on a non-zero inode reference. -/
theorem C13_makeID_not_zero_witness :
    (makeID ({ ids := 18446744073709551615, blocks := [], store := some [], blocksize := 4 } : baseBlockset (List (BlockRef × List Byte))) { Volume := 1, INode := 7 }).2.IsZero = false :=
  (C13_makeID_not_zero (memStore 4) { ids := 18446744073709551615, blocks := [], store := some [], blocksize := 4 } { Volume := 1, INode := 7 } (Or.inr (by decide))).1

/-! ## C15: store pass-through on read -/

/-- C15. Store pass-through on read: for an index `0 <= i < Length()` whose entry `r`
is not the zero sentinel, `GetBlock` issues exactly the store read of `r` and returns
what it returns: the same bytes on success, the same error and no data on
failure; the reference sequence, the allocation counter, the block size and the
scratch array are unchanged. -/
theorem C15_store_pass_through {σ : Type} (S : BlockStore σ) (b : baseBlockset σ)
    (z : Scratch) (ctx : Context) (i : Int) (r : BlockRef) (s : σ)
    (h0 : 0 ≤ i) (hr : index? b.blocks i = some r) (hz : r.IsZero = false)
    (hs : b.store = some s) :
    (GetBlock S b z ctx i).calls = [.getBlock ctx r] ∧
    ((S.GetBlock s ctx r).2.2 = none →
      (GetBlock S b z ctx i).out = .ok (.stored (S.GetBlock s ctx r).2.1) ∧
      (GetBlock S b z ctx i).read = .ok (S.GetBlock s ctx r).2.1) ∧
    (∀ e : Error, (S.GetBlock s ctx r).2.2 = some e →
      (GetBlock S b z ctx i).out = .error e) ∧
    (GetBlock S b z ctx i).b.blocks = b.blocks ∧
    (GetBlock S b z ctx i).b.ids = b.ids ∧
    (GetBlock S b z ctx i).b.blocksize = b.blocksize ∧
    (GetBlock S b z ctx i).zeroes = z := by
  rw [index?_eq_getElem? _ _ h0] at hr
  rw [GetBlock_stored_eq S b z ctx i r s h0 hr hz hs]
  rcases S.GetBlock s ctx r with ⟨s1, bytes, _ | e⟩
  · refine ⟨rfl, fun _ => ⟨rfl, rfl⟩, ?_, rfl, rfl, rfl, rfl⟩
    intro e he
    cases he
  · refine ⟨rfl, ?_, ?_, rfl, rfl, rfl, rfl⟩
    · intro he
      cases he
    · intro e1 he
      simp only [Option.some.injEq] at he
      subst he
      rfl

/-- Witness for C15: a block read back from the in-memory store. -/
theorem C15_store_pass_through_witness :
    (GetBlock (memStore 4) { ids := 1, blocks := [{ Volume := 1, INode := 7, Index := 1 }], store := some [({ Volume := 1, INode := 7, Index := 1 }, [1, 2, 3, 4])], blocksize := 4 } (fun _ => 0) 0 0).out = .ok (.stored [1, 2, 3, 4]) :=
  ((C15_store_pass_through (memStore 4) { ids := 1, blocks := [{ Volume := 1, INode := 7, Index := 1 }], store := some [({ Volume := 1, INode := 7, Index := 1 }, [1, 2, 3, 4])], blocksize := 4 } (fun _ => 0) 0 0 { Volume := 1, INode := 7, Index := 1 } [({ Volume := 1, INode := 7, Index := 1 }, [1, 2, 3, 4])] (by decide) rfl rfl rfl).2.1 rfl).1

/-! ## C18: the buffer of a sparse read -/

/-- C18, as stated, fails: two sparse reads return the same slice `zeroes[:4]` of the
package-level array, and a byte written through the first buffer changes what the
second buffer holds. -/
theorem C18_zero_buffers_share_storage :
    (GetBlock (memStore 4) { ids := 0, blocks := [ZeroBlock, ZeroBlock], store := some [], blocksize := 4 } (fun _ => 0) 0 0).out = .ok (.zeroesSlice 4) ∧
    (GetBlock (memStore 4) { ids := 0, blocks := [ZeroBlock, ZeroBlock], store := some [], blocksize := 4 } (fun _ => 0) 0 1).out = .ok (.zeroesSlice 4) ∧
    Buf.bytes (GetBlock (memStore 4) { ids := 0, blocks := [ZeroBlock, ZeroBlock], store := some [], blocksize := 4 } (fun _ => 0) 0 1).zeroes (.zeroesSlice 4) = [0, 0, 0, 0] ∧
    Buf.bytes (Buf.write (GetBlock (memStore 4) { ids := 0, blocks := [ZeroBlock, ZeroBlock], store := some [], blocksize := 4 } (fun _ => 0) 0 1).zeroes (.zeroesSlice 4) 0 9).1 (.zeroesSlice 4) = [9, 0, 0, 0] := by
  refine ⟨rfl, rfl, rfl, rfl⟩

/-- C18 (amended). Every sparse zero read returns a slice of the one package-level
array `zeroes`, zeroed at the moment the call returns: for two `GetBlock` calls that
hit zero-sentinel entries (block sizes at most 1048576, on the same or on
different blocksets), both buffers are prefixes of `zeroes`, each reads as all zero
when its own call returns, and the first still reads as all zero when the second
call returns; a byte written through either buffer at a position inside both is
read through the other. -/
theorem C18_zero_buffers {σ τ : Type} (S : BlockStore σ) (T : BlockStore τ)
    (b1 : baseBlockset σ) (b2 : baseBlockset τ) (z : Scratch) (ctx1 ctx2 : Context)
    (i1 i2 : Int)
    (h1 : 0 ≤ i1) (hr1 : index? b1.blocks i1 = some ZeroBlock) (hs1 : b1.blocksize ≤ zeroesLen)
    (h2 : 0 ≤ i2) (hr2 : index? b2.blocks i2 = some ZeroBlock) (hs2 : b2.blocksize ≤ zeroesLen) :
    (GetBlock S b1 z ctx1 i1).out = .ok (.zeroesSlice b1.blocksize) ∧
    (GetBlock T b2 (GetBlock S b1 z ctx1 i1).zeroes ctx2 i2).out
      = .ok (.zeroesSlice b2.blocksize) ∧
    Buf.bytes (GetBlock S b1 z ctx1 i1).zeroes (.zeroesSlice b1.blocksize)
      = List.replicate b1.blocksize 0 ∧
    Buf.bytes (GetBlock T b2 (GetBlock S b1 z ctx1 i1).zeroes ctx2 i2).zeroes
      (.zeroesSlice b2.blocksize) = List.replicate b2.blocksize 0 ∧
    Buf.bytes (GetBlock T b2 (GetBlock S b1 z ctx1 i1).zeroes ctx2 i2).zeroes
      (.zeroesSlice b1.blocksize) = List.replicate b1.blocksize 0 ∧
    (∀ (k : Nat) (v : Byte), k < b1.blocksize → k < b2.blocksize →
      (Buf.bytes
        (Buf.write (GetBlock T b2 (GetBlock S b1 z ctx1 i1).zeroes ctx2 i2).zeroes
          (.zeroesSlice b1.blocksize) k v).1 (.zeroesSlice b2.blocksize))[k]? = some v) ∧
    (∀ (k : Nat) (v : Byte), k < b1.blocksize → k < b2.blocksize →
      (Buf.bytes
        (Buf.write (GetBlock T b2 (GetBlock S b1 z ctx1 i1).zeroes ctx2 i2).zeroes
          (.zeroesSlice b2.blocksize) k v).1 (.zeroesSlice b1.blocksize))[k]? = some v) := by
  obtain ⟨ho1, hb1⟩ := GetBlock_reads_zero S b1 z ctx1 i1 h1 hr1 hs1
  obtain ⟨ho2, hb2⟩ := GetBlock_reads_zero T b2 (GetBlock S b1 z ctx1 i1).zeroes ctx2 i2 h2
    hr2 hs2
  have hg1 : index? b1.blocks i1 = some ZeroBlock := hr1
  have hg2 : index? b2.blocks i2 = some ZeroBlock := hr2
  rw [index?_eq_getElem? _ _ h1] at hg1
  rw [index?_eq_getElem? _ _ h2] at hg2
  have e1 := GetBlock_zero_eq S b1 z ctx1 i1 ZeroBlock h1 hg1 IsZero_ZeroBlock hs1
  have e2 := GetBlock_zero_eq T b2 (GetBlock S b1 z ctx1 i1).zeroes ctx2 i2 ZeroBlock h2 hg2
    IsZero_ZeroBlock hs2
  refine ⟨ho1, ho2, hb1, hb2, ?_, ?_, ?_⟩
  · rw [e2]
    simp only [Buf.bytes]
    rw [List.eq_replicate_iff]
    refine ⟨by simp, ?_⟩
    intro x hx
    rcases List.mem_map.mp hx with ⟨k, hk, rfl⟩
    have hk1 : k < b1.blocksize := List.mem_range.mp hk
    by_cases hk2 : 0 ≤ k ∧ k < 0 + b2.blocksize
    · rw [if_pos hk2]
    · rw [if_neg hk2, e1]
      simp only
      rw [if_pos (by omega)]
  · intro k v hk1 hk2
    simp only [Buf.write, if_pos hk1, Buf.bytes, List.getElem?_map, List.getElem?_range hk2,
      Option.map_some', Function.update_same]
  · intro k v hk1 hk2
    simp only [Buf.write, if_pos hk2, Buf.bytes, List.getElem?_map, List.getElem?_range hk1,
      Option.map_some', Function.update_same]

/-- Witness for C18: two sparse reads of block size 4 on one blockset. -/
theorem C18_zero_buffers_witness :
    (Buf.bytes (Buf.write (GetBlock (memStore 4) { ids := 0, blocks := [ZeroBlock, ZeroBlock], store := some [], blocksize := 4 } (GetBlock (memStore 4) { ids := 0, blocks := [ZeroBlock, ZeroBlock], store := some [], blocksize := 4 } (fun _ => 0) 0 0).zeroes 0 1).zeroes (.zeroesSlice 4) 2 9).1 (.zeroesSlice 4))[2]? = some 9 :=
  (C18_zero_buffers (memStore 4) (memStore 4) { ids := 0, blocks := [ZeroBlock, ZeroBlock], store := some [], blocksize := 4 } { ids := 0, blocks := [ZeroBlock, ZeroBlock], store := some [], blocksize := 4 } (fun _ => 0) 0 0 0 1 (by decide) rfl (by decide) (by decide) rfl (by decide)).2.2.2.2.2.1 2 9 (by decide) (by decide)

/-! ## C20: what Truncate, Trim and Unmarshal leave alone -/

/-- `Trim` changes at most the reference sequence and issues no store call. -/
theorem Trim_frame {σ : Type} (b : baseBlockset σ) (from_ to_ : Int) :
    (Trim b from_ to_).b.ids = b.ids ∧ (Trim b from_ to_).b.store = b.store ∧
    (Trim b from_ to_).b.blocksize = b.blocksize ∧ (Trim b from_ to_).calls = [] := by
  unfold Trim
  by_cases h : from_ ≥ (b.blocks.length : Int)
  · rw [if_pos h]
    exact ⟨rfl, rfl, rfl, rfl⟩
  · rw [if_neg h]
    simp only
    generalize trimLoop _ from_ b.blocks = p
    rcases p with ⟨bl, _ | _⟩ <;> exact ⟨rfl, rfl, rfl, rfl⟩

/-- `Truncate` changes at most the reference sequence and issues no store call. -/
theorem Truncate_frame {σ : Type} (b : baseBlockset σ) (lastIndex : Int) (bs : Nat) :
    (Truncate b lastIndex bs).b.ids = b.ids ∧ (Truncate b lastIndex bs).b.store = b.store ∧
    (Truncate b lastIndex bs).b.blocksize = b.blocksize ∧
    (Truncate b lastIndex bs).calls = [] := by
  unfold Truncate
  split_ifs <;> exact ⟨rfl, rfl, rfl, rfl⟩

/-- C20. `Truncate`, `Trim` and `Unmarshal` change only the reference sequence: for
every blockset and every argument, the allocation counter, the bound store (handle
and contents) and the block size are the same after the call as before it, and
the call issues no read and no write to the store. -/
theorem C20_frame {σ : Type} (C : Codec) (b : baseBlockset σ) (lastIndex : Int) (bs : Nat)
    (from_ to_ : Int) (data : List Byte) :
    ((Truncate b lastIndex bs).b.ids = b.ids ∧ (Truncate b lastIndex bs).b.store = b.store ∧
      (Truncate b lastIndex bs).b.blocksize = b.blocksize ∧
      (Truncate b lastIndex bs).calls = []) ∧
    ((Trim b from_ to_).b.ids = b.ids ∧ (Trim b from_ to_).b.store = b.store ∧
      (Trim b from_ to_).b.blocksize = b.blocksize ∧ (Trim b from_ to_).calls = []) ∧
    ((Unmarshal C b data).b.ids = b.ids ∧ (Unmarshal C b data).b.store = b.store ∧
      (Unmarshal C b data).b.blocksize = b.blocksize ∧ (Unmarshal C b data).calls = []) :=
  ⟨Truncate_frame b lastIndex bs, Trim_frame b from_ to_, rfl, rfl, rfl, rfl⟩

/-! ## C16: the worked example -/

/-- C16. The worked example: on a fresh blockset bound to a store with block size 4
that accepts every write and reads back what was written,
`PutBlock(inode=7, 0, [1,2,3,4])`, `PutBlock(inode=7, 1, [5,6,7,8])`, `Truncate(3, 4)` give
`Length() == 3` and `GetBlock(2) == [0,0,0,0]`; a following `Trim(0, 1)` gives
`GetBlock(0) == [0,0,0,0]` and `GetBlock(1) == [5,6,7,8]`; no call returns an error. -/
theorem C16_worked_example {σ : Type} (S : BlockStore σ) (s0 : σ) (ctx : Context)
    (volume : Nat) (z : Scratch)
    (hS : StoreReadsBackWrites S)
    (hacc : ∀ (s : σ) (c : Context) (ref : BlockRef) (data : List Byte),
      (S.WriteBlock s c ref data).2 = none)
    (hbs : S.BlockSize s0 = 4) :
    workedExample S s0 ctx { Volume := volume, INode := 7 } z
      = ([.ok (), .ok (), .ok (), .ok ()], 3, .ok [0, 0, 0, 0], .ok [0, 0, 0, 0],
          .ok [5, 6, 7, 8]) := by
  have hw : ∀ (s : σ) (ref : BlockRef) (data : List Byte),
      S.WriteBlock s ctx ref data = ((S.WriteBlock s ctx ref data).1, none) := by
    intro s ref data
    exact Prod.ext rfl (hacc s ctx ref data)
  have hr1 := PutBlock_ok_eq S (newBaseBlockset S (some s0)) ctx
    { Volume := volume, INode := 7 } 0 [1, 2, 3, 4] s0 _ (by decide) (by simp [newBaseBlockset]) rfl
    (hw s0 _ _)
  have hr2 := PutBlock_ok_eq S
    { ids := 1, blocks := [{ Volume := volume, INode := 7, Index := 1 }], store := some (S.WriteBlock s0 ctx { Volume := volume, INode := 7, Index := 1 } [1, 2, 3, 4]).1, blocksize := 4 }
    ctx { Volume := volume, INode := 7 } 1 [5, 6, 7, 8] _ _ (by decide) (by simp) rfl
    (hw _ _ _)
  obtain ⟨s3, hg⟩ := hS _ _ ctx _ _
    (hw (S.WriteBlock s0 ctx { Volume := volume, INode := 7, Index := 1 } [1, 2, 3, 4]).1
      { Volume := volume, INode := 7, Index := 2 } [5, 6, 7, 8]) ctx
  have hr3 := Truncate_extend_eq
    ({ ids := 2, blocks := [{ Volume := volume, INode := 7, Index := 1 }, { Volume := volume, INode := 7, Index := 2 }], store := some (S.WriteBlock (S.WriteBlock s0 ctx { Volume := volume, INode := 7, Index := 1 } [1, 2, 3, 4]).1 ctx { Volume := volume, INode := 7, Index := 2 } [5, 6, 7, 8]).1, blocksize := 4 } : baseBlockset σ)
    3 4 (by simp)
  have hg2 := GetBlock_zero_eq S
    ({ ids := 2, blocks := [{ Volume := volume, INode := 7, Index := 1 }, { Volume := volume, INode := 7, Index := 2 }, ZeroBlock], store := some (S.WriteBlock (S.WriteBlock s0 ctx { Volume := volume, INode := 7, Index := 1 } [1, 2, 3, 4]).1 ctx { Volume := volume, INode := 7, Index := 2 } [5, 6, 7, 8]).1, blocksize := 4 } : baseBlockset σ)
    z ctx 2 ZeroBlock (by decide) rfl rfl (show 4 ≤ zeroesLen by decide)
  have hr4 : Trim
      ({ ids := 2, blocks := [{ Volume := volume, INode := 7, Index := 1 }, { Volume := volume, INode := 7, Index := 2 }, ZeroBlock], store := some (S.WriteBlock (S.WriteBlock s0 ctx { Volume := volume, INode := 7, Index := 1 } [1, 2, 3, 4]).1 ctx { Volume := volume, INode := 7, Index := 2 } [5, 6, 7, 8]).1, blocksize := 4 } : baseBlockset σ) 0 1
      = ⟨{ ids := 2, blocks := [ZeroBlock, { Volume := volume, INode := 7, Index := 2 }, ZeroBlock], store := some (S.WriteBlock (S.WriteBlock s0 ctx { Volume := volume, INode := 7, Index := 1 } [1, 2, 3, 4]).1 ctx { Volume := volume, INode := 7, Index := 2 } [5, 6, 7, 8]).1, blocksize := 4 }, .ok (), []⟩ := rfl
  have hg0 := fun z1 : Scratch => GetBlock_zero_eq S
    ({ ids := 2, blocks := [ZeroBlock, { Volume := volume, INode := 7, Index := 2 }, ZeroBlock], store := some (S.WriteBlock (S.WriteBlock s0 ctx { Volume := volume, INode := 7, Index := 1 } [1, 2, 3, 4]).1 ctx { Volume := volume, INode := 7, Index := 2 } [5, 6, 7, 8]).1, blocksize := 4 } : baseBlockset σ)
    z1 ctx 0 ZeroBlock (by decide) rfl rfl (show 4 ≤ zeroesLen by decide)
  have hg1 := fun z1 : Scratch => GetBlock_stored_eq S
    ({ ids := 2, blocks := [ZeroBlock, { Volume := volume, INode := 7, Index := 2 }, ZeroBlock], store := some (S.WriteBlock (S.WriteBlock s0 ctx { Volume := volume, INode := 7, Index := 1 } [1, 2, 3, 4]).1 ctx { Volume := volume, INode := 7, Index := 2 } [5, 6, 7, 8]).1, blocksize := 4 } : baseBlockset σ)
    z1 ctx 1 { Volume := volume, INode := 7, Index := 2 } _ (by decide) rfl
    (IsZero_false_of_Index_ne_zero _ (by simp)) rfl
  simp only [newBaseBlockset, hbs, List.length_nil, Int.ofNat_zero, Nat.cast_zero, if_true,
    List.nil_append, Nat.zero_add, Nat.reduceMod, Nat.reducePow] at hr1
  simp only [List.length_singleton, Nat.cast_one, if_true, List.singleton_append,
    Nat.reduceAdd, Nat.reduceMod, Nat.reducePow] at hr2
  simp only [List.length_cons, List.length_nil, Nat.zero_add, Nat.reduceAdd, Nat.cast_ofNat,
    Int.reduceSub, Int.toNat_ofNat, Int.reduceToNat, List.replicate_one, List.replicate,
    List.cons_append, List.nil_append] at hr3
  have hz4 : ∀ z1 : Scratch,
      Buf.bytes (fun k => if 0 ≤ k ∧ k < 0 + 4 then 0 else z1 k) (.zeroesSlice 4)
        = [0, 0, 0, 0] := fun z1 => bytes_after_zeroFill 4 z1
  simp only [workedExample, newBaseBlockset, hbs, hr1, hr2, hr3, hg2, hr4, hg0, hg1, hg,
    GetResult.read, Length, hz4, List.length_cons, List.length_nil]
  rfl

/-- Witness for C16: the in-memory store with block size 4. -/
theorem C16_worked_example_witness :
    workedExample (memStore 4) [] 0 { Volume := 1, INode := 7 } (fun _ => 9)
      = ([.ok (), .ok (), .ok (), .ok ()], 3, .ok [0, 0, 0, 0], .ok [0, 0, 0, 0],
          .ok [5, 6, 7, 8]) :=
  C16_worked_example (memStore 4) [] 0 1 (fun _ => 9) (memStore_readsBackWrites 4)
    (fun _ _ _ _ => rfl) rfl

/-! ## What one call does to the entries -/

/-- `Truncate` keeps an entry where it was or leaves the zero sentinel there. -/
theorem Truncate_entries {σ : Type} (b : baseBlockset σ) (lastIndex : Int) (bs : Nat)
    (j : Nat) (r : BlockRef) (h : (Truncate b lastIndex bs).b.blocks[j]? = some r) :
    r = ZeroBlock ∨ b.blocks[j]? = some r := by
  by_cases hle : lastIndex ≤ (b.blocks.length : Int)
  · by_cases hneg : lastIndex < 0
    · have hb : (Truncate b lastIndex bs).b = b := by
        unfold Truncate
        rw [if_pos hle, if_pos hneg]
      rw [hb] at h
      exact Or.inr h
    · rw [Truncate_shrink_eq b lastIndex bs (by omega) hle] at h
      simp only [List.getElem?_take] at h
      split_ifs at h
      exact Or.inr h
  · rw [Truncate_extend_eq b lastIndex bs (by omega)] at h
    simp only at h
    by_cases hj : j < b.blocks.length
    · rw [List.getElem?_append_left hj] at h
      exact Or.inr h
    · rw [List.getElem?_append_right (by omega), List.getElem?_replicate] at h
      split_ifs at h
      simp only [Option.some.injEq] at h
      exact Or.inl h.symm

/-- The loop of `Trim` started at a negative index changes nothing. -/
theorem trimLoop_neg (n : Nat) (i : Int) (bl : List BlockRef) (h : i < 0) :
    (trimLoop n i bl).1 = bl := by
  cases n with
  | zero => rfl
  | succ n =>
    simp only [trimLoop, setIndex?_neg _ _ _ h]

/-- `Trim` keeps an entry where it was or leaves the zero sentinel there. -/
theorem Trim_entries {σ : Type} (b : baseBlockset σ) (from_ to_ : Int)
    (j : Nat) (r : BlockRef) (h : (Trim b from_ to_).b.blocks[j]? = some r) :
    r = ZeroBlock ∨ b.blocks[j]? = some r := by
  by_cases hpast : (b.blocks.length : Int) ≤ from_
  · rw [Trim_past_end_eq b from_ to_ hpast] at h
    exact Or.inr h
  · by_cases hneg : from_ < 0
    · have hb : (Trim b from_ to_).b.blocks = b.blocks := by
        unfold Trim
        rw [if_neg hpast]
        simp only
        have hl := trimLoop_neg
          ((if to_ > (b.blocks.length : Int) then (b.blocks.length : Int) else to_)
            - from_).toNat from_ b.blocks hneg
        generalize trimLoop _ from_ b.blocks = p at hl
        rcases p with ⟨bl, _ | _⟩ <;> exact hl
      rw [hb] at h
      exact Or.inr h
    · obtain ⟨bl, heq, _, hent⟩ := Trim_inside_eq b from_ to_ (by omega) (by omega)
      rw [heq] at h
      simp only at h
      rw [hent j] at h
      split_ifs at h
      · simp only [Option.some.injEq] at h
        exact Or.inl h.symm
      · exact Or.inr h

/-- A `PutBlock` whose index is at most `Length()` takes an id; it then leaves the
sequence alone, or returns no error and puts the new reference at index `i`,
keeping every other entry where it was. -/
theorem PutBlock_entries {σ : Type} (S : BlockStore σ) (b : baseBlockset σ) (ctx : Context)
    (inode : INodeRef) (i : Int) (data : List Byte) (hi : i ≤ (b.blocks.length : Int)) :
    (PutBlock S b ctx inode i data).b.ids = (b.ids + 1) % 2 ^ 64 ∧
    ((PutBlock S b ctx inode i data).b.blocks = b.blocks ∨
      ((PutBlock S b ctx inode i data).out = .ok () ∧
        ∀ (j : Nat) (r : BlockRef), (PutBlock S b ctx inode i data).b.blocks[j]? = some r →
          (j = i.toNat ∧ r = { toINodeRef := inode, Index := (b.ids + 1) % 2 ^ 64 }) ∨
          (j ≠ i.toNat ∧ b.blocks[j]? = some r))) := by
  cases hs : b.store with
  | none =>
    rw [PutBlock_nil_eq S b ctx inode i data hi hs]
    exact ⟨rfl, Or.inl rfl⟩
  | some s =>
    rcases hw : S.WriteBlock s ctx
      { toINodeRef := inode, Index := (b.ids + 1) % 2 ^ 64 } data with ⟨s1, _ | e⟩
    · by_cases hneg : i < 0
      · have hne : ¬ i = (b.blocks.length : Int) := by omega
        unfold PutBlock
        rw [if_neg (by omega)]
        simp only [makeID, hs, hw, if_neg hne, setIndex?_neg _ _ _ hneg]
        exact ⟨trivial, Or.inl trivial⟩
      · rw [PutBlock_ok_eq S b ctx inode i data s s1 (by omega) hi hs hw]
        refine ⟨rfl, Or.inr ⟨rfl, ?_⟩⟩
        intro j r hj
        simp only at hj
        by_cases hlen : i = (b.blocks.length : Int)
        · have hk : i.toNat = b.blocks.length := by omega
          rw [if_pos hlen] at hj
          by_cases hjl : j < b.blocks.length
          · rw [List.getElem?_append_left hjl] at hj
            exact Or.inr ⟨by omega, hj⟩
          · rw [List.getElem?_append_right (by omega)] at hj
            by_cases hj0 : j - b.blocks.length = 0
            · rw [hj0] at hj
              simp only [List.getElem?_cons_zero, Option.some.injEq] at hj
              exact Or.inl ⟨by omega, hj.symm⟩
            · rw [List.getElem?_eq_none (by simp only [List.length_singleton]; omega)] at hj
              cases hj
        · rw [if_neg hlen] at hj
          by_cases hjk : j = i.toNat
          · subst hjk
            rw [List.getElem?_set_self (by omega)] at hj
            simp only [Option.some.injEq] at hj
            exact Or.inl ⟨rfl, hj.symm⟩
          · rw [List.getElem?_set_ne (Ne.symm hjk)] at hj
            exact Or.inr ⟨hjk, hj⟩
    · rw [PutBlock_fail_eq S b ctx inode i data s s1 e hi hs hw]
      exact ⟨rfl, Or.inl rfl⟩

/-! ## Invariants of a sequence of calls -/

/-- One call either keeps the counter or takes ids, leaving every entry where it
was or zeroed; or it is a successful `PutBlock`, which takes exactly one id and puts
the reference carrying it at one index. -/
theorem step_cases {σ : Type} (S : BlockStore σ) (b : baseBlockset σ) (op : Op)
    (hnw : ∀ ctx inode i data, op = .put ctx inode i data → i ≤ Length b →
      b.ids + 1 < 2 ^ 64) :
    (b.ids ≤ (step S b op).b.ids ∧
      ∀ (j : Nat) (r : BlockRef), (step S b op).b.blocks[j]? = some r →
        r = ZeroBlock ∨ b.blocks[j]? = some r) ∨
    ((step S b op).b.ids = b.ids + 1 ∧ ∃ (k : Nat) (inode : INodeRef),
      ∀ (j : Nat) (r : BlockRef), (step S b op).b.blocks[j]? = some r →
        (j = k ∧ r = { toINodeRef := inode, Index := b.ids + 1 }) ∨
        (j ≠ k ∧ b.blocks[j]? = some r)) := by
  cases op with
  | put ctx inode i data =>
    simp only [step]
    by_cases hi : i ≤ (b.blocks.length : Int)
    · have hlt := hnw ctx inode i data rfl hi
      have hmod : (b.ids + 1) % 2 ^ 64 = b.ids + 1 := Nat.mod_eq_of_lt hlt
      obtain ⟨hids, hb | ⟨_, hent⟩⟩ := PutBlock_entries S b ctx inode i data hi
      · left
        rw [hids, hmod, hb]
        exact ⟨by omega, fun j r h => Or.inr h⟩
      · right
        rw [hmod] at hids hent
        exact ⟨hids, i.toNat, inode, hent⟩
    · left
      rw [PutBlock_past_end_eq S b ctx inode i data (by omega)]
      exact ⟨le_refl _, fun j r h => Or.inr h⟩
  | truncate lastIndex blocksize =>
    left
    simp only [step]
    refine ⟨?_, Truncate_entries b lastIndex blocksize⟩
    rw [(Truncate_frame b lastIndex blocksize).1]
  | trim from_ to_ =>
    left
    simp only [step]
    refine ⟨?_, Trim_entries b from_ to_⟩
    rw [(Trim_frame b from_ to_).1]

/-- One call keeps `EntriesAllocated`. -/
theorem step_EntriesAllocated {σ : Type} (S : BlockStore σ) (P : List BlockRef)
    (b : baseBlockset σ) (op : Op)
    (hnw : ∀ ctx inode i data, op = .put ctx inode i data → i ≤ Length b →
      b.ids + 1 < 2 ^ 64)
    (h : EntriesAllocated P b) : EntriesAllocated P (step S b op).b := by
  intro r hr
  obtain ⟨j, hj⟩ := List.mem_iff_getElem?.mp hr
  rcases step_cases S b op hnw with ⟨hids, hent⟩ | ⟨hids, k, inode, hent⟩
  · rcases hent j r hj with rfl | hold
    · exact Or.inl IsZero_ZeroBlock
    · rcases h r (List.mem_iff_getElem?.mpr ⟨j, hold⟩) with hz | hp | ⟨h1, h2⟩
      · exact Or.inl hz
      · exact Or.inr (Or.inl hp)
      · exact Or.inr (Or.inr ⟨h1, by omega⟩)
  · rcases hent j r hj with ⟨_, rfl⟩ | ⟨_, hold⟩
    · exact Or.inr (Or.inr ⟨by simp, by simp [hids]⟩)
    · rcases h r (List.mem_iff_getElem?.mpr ⟨j, hold⟩) with hz | hp | ⟨h1, h2⟩
      · exact Or.inl hz
      · exact Or.inr (Or.inl hp)
      · exact Or.inr (Or.inr ⟨h1, by omega⟩)

/-- One call keeps `IndicesDistinct` when every entry was allocated by the counter. -/
theorem step_IndicesDistinct {σ : Type} (S : BlockStore σ) (b : baseBlockset σ) (op : Op)
    (hnw : ∀ ctx inode i data, op = .put ctx inode i data → i ≤ Length b →
      b.ids + 1 < 2 ^ 64)
    (h1 : EntriesAllocated [] b) (h2 : IndicesDistinct b) :
    IndicesDistinct (step S b op).b := by
  have hold_le : ∀ (j : Nat) (r : BlockRef), b.blocks[j]? = some r → r.IsZero = false →
      r.Index ≤ b.ids := by
    intro j r hj hz
    rcases h1 r (List.mem_iff_getElem?.mpr ⟨j, hj⟩) with hz1 | hp | ⟨_, hle⟩
    · rw [hz] at hz1
      cases hz1
    · cases hp
    · exact hle
  have hnz : ∀ r : BlockRef, r.IsZero = false → r ≠ ZeroBlock := by
    intro r hz hr
    rw [hr, IsZero_ZeroBlock] at hz
    cases hz
  intro i j r1 r2 hij hi hj hz1 hz2
  rcases step_cases S b op hnw with ⟨_, hent⟩ | ⟨_, k, inode, hent⟩
  · rcases hent i r1 hi with hr1 | hold1
    · exact absurd hr1 (hnz r1 hz1)
    · rcases hent j r2 hj with hr2 | hold2
      · exact absurd hr2 (hnz r2 hz2)
      · exact h2 i j r1 r2 hij hold1 hold2 hz1 hz2
  · rcases hent i r1 hi with ⟨hik, rfl⟩ | ⟨hik, hold1⟩
    · rcases hent j r2 hj with ⟨hjk, _⟩ | ⟨_, hold2⟩
      · omega
      · have := hold_le j r2 hold2 hz2
        simp only
        omega
    · rcases hent j r2 hj with ⟨_, rfl⟩ | ⟨_, hold2⟩
      · have := hold_le i r1 hold1 hz1
        simp only
        omega
      · exact h2 i j r1 r2 hij hold1 hold2 hz1 hz2

/-- A sequence of calls split in two. -/
theorem run_append {σ : Type} (S : BlockStore σ) : ∀ (ops1 ops2 : List Op) (b : baseBlockset σ),
    run S b (ops1 ++ ops2) = run S (run S b ops1) ops2 := by
  intro ops1
  induction ops1 with
  | nil =>
    intro ops2 b
    rfl
  | cons op ops1 ih =>
    intro ops2 b
    simp only [List.cons_append, run]
    exact ih ops2 _

/-- The head of a sequence during which the counter stays below `2^64`. -/
theorem noWrap_cons {σ : Type} (S : BlockStore σ) (b : baseBlockset σ) (op : Op)
    (ops : List Op) (h : noWrap S b (op :: ops)) :
    (∀ ctx inode i data, op = .put ctx inode i data → i ≤ Length b → b.ids + 1 < 2 ^ 64) ∧
    noWrap S (step S b op).b ops := by
  cases op with
  | put ctx inode i data =>
    simp only [noWrap] at h
    refine ⟨?_, h.2⟩
    intro ctx1 inode1 i1 data1 heq
    cases heq
    exact h.1
  | truncate lastIndex blocksize =>
    simp only [noWrap] at h
    refine ⟨?_, h⟩
    intro ctx1 inode1 i1 data1 heq
    cases heq
  | trim from_ to_ =>
    simp only [noWrap] at h
    refine ⟨?_, h⟩
    intro ctx1 inode1 i1 data1 heq
    cases heq

/-- Along a sequence of calls during which the counter stays below `2^64`, the
counter does not decrease and both invariants are kept. -/
theorem run_invariant {σ : Type} (S : BlockStore σ) (P : List BlockRef) :
    ∀ (ops : List Op) (b : baseBlockset σ), noWrap S b ops → EntriesAllocated P b →
      b.ids ≤ (run S b ops).ids ∧ EntriesAllocated P (run S b ops) ∧
      (P = [] → IndicesDistinct b → IndicesDistinct (run S b ops)) := by
  intro ops
  induction ops with
  | nil =>
    intro b _ h
    exact ⟨le_refl _, h, fun _ h2 => h2⟩
  | cons op ops ih =>
    intro b hnw h
    obtain ⟨hop, hrest⟩ := noWrap_cons S b op ops hnw
    have hstep := step_EntriesAllocated S P b op hop h
    have hmono : b.ids ≤ (step S b op).b.ids := by
      rcases step_cases S b op hop with ⟨hids, _⟩ | ⟨hids, _⟩
      · exact hids
      · omega
    obtain ⟨h1, h2, h3⟩ := ih (step S b op).b hrest hstep
    refine ⟨le_trans hmono h1, h2, ?_⟩
    intro hP hd
    subst hP
    exact h3 rfl (step_IndicesDistinct S b op hop h hd)

/-- A sequence during which the counter stays below `2^64`, split in two. -/
theorem noWrap_append {σ : Type} (S : BlockStore σ) :
    ∀ (ops1 ops2 : List Op) (b : baseBlockset σ), noWrap S b (ops1 ++ ops2) →
      noWrap S b ops1 ∧ noWrap S (run S b ops1) ops2 := by
  intro ops1
  induction ops1 with
  | nil =>
    intro ops2 b h
    exact ⟨trivial, h⟩
  | cons op ops1 ih =>
    intro ops2 b h
    obtain ⟨hop, hrest⟩ := noWrap_cons S b op (ops1 ++ ops2) h
    obtain ⟨h1, h2⟩ := ih ops2 _ hrest
    refine ⟨?_, h2⟩
    cases op with
    | put ctx inode i data =>
      simp only [noWrap]
      exact ⟨hop ctx inode i data rfl, h1⟩
    | truncate lastIndex blocksize =>
      simp only [noWrap]
      exact h1
    | trim from_ to_ =>
      simp only [noWrap]
      exact h1

/-! ## C19: reachable states -/

/-- C19. Reachable-state invariant: in every state reached from a fresh blockset
(empty sequence, counter 0) by a finite sequence of `PutBlock`, `Truncate` and `Trim`
calls during which the counter stays below `2^64`, every entry is the zero sentinel
or has a sequence index `k` with `1 <= k <= counter`, the entries that are not the
zero sentinel have pairwise distinct sequence indices, and the counter is at least
what it was before any of the calls. -/
theorem C19_reachable_invariant {σ : Type} (S : BlockStore σ) (store : Option σ)
    (ops : List Op) (h : noWrap S (newBaseBlockset S store) ops) :
    (∀ r ∈ (run S (newBaseBlockset S store) ops).blocks,
      r.IsZero = true ∨
        (1 ≤ r.Index ∧ r.Index ≤ (run S (newBaseBlockset S store) ops).ids)) ∧
    (∀ (i j : Nat) (r1 r2 : BlockRef), i ≠ j →
      (run S (newBaseBlockset S store) ops).blocks[i]? = some r1 →
      (run S (newBaseBlockset S store) ops).blocks[j]? = some r2 →
      r1.IsZero = false → r2.IsZero = false → r1.Index ≠ r2.Index) ∧
    (∀ ops1 ops2 : List Op, ops = ops1 ++ ops2 →
      (run S (newBaseBlockset S store) ops1).ids
        ≤ (run S (newBaseBlockset S store) ops).ids) := by
  have hfresh : EntriesAllocated [] (newBaseBlockset S store) := by
    intro r hr
    cases hr
  have hdist : IndicesDistinct (newBaseBlockset S store) := by
    intro i j r1 r2 _ hi
    simp [newBaseBlockset] at hi
  obtain ⟨_, h1, h2⟩ := run_invariant S [] ops (newBaseBlockset S store) h hfresh
  refine ⟨?_, h2 rfl hdist, ?_⟩
  · intro r hr
    rcases h1 r hr with hz | hp | hk
    · exact Or.inl hz
    · cases hp
    · exact Or.inr hk
  · intro ops1 ops2 hsplit
    subst hsplit
    obtain ⟨hn1, hn2⟩ := noWrap_append S ops1 ops2 _ h
    obtain ⟨_, ha, _⟩ := run_invariant S [] ops1 (newBaseBlockset S store) hn1 hfresh
    rw [run_append]
    exact (run_invariant S [] ops2 _ hn2 ha).1

/-- Witness for C19: an append, a failing far write, an extension and a trim; the
entry left at index 0 carries an index between 1 and the counter. -/
theorem C19_reachable_invariant_witness :
    ({ Volume := 1, INode := 7, Index := 1 } : BlockRef).IsZero = true ∨
      (1 ≤ ({ Volume := 1, INode := 7, Index := 1 } : BlockRef).Index ∧
        ({ Volume := 1, INode := 7, Index := 1 } : BlockRef).Index
          ≤ (run (memStore 4) (newBaseBlockset (memStore 4) (some []))
            [.put 0 { Volume := 1, INode := 7 } 0 [1, 2, 3, 4], .put 0 { Volume := 1, INode := 7 } 5 [1, 2, 3, 4], .truncate 3 4, .trim 1 2]).ids) :=
  (C19_reachable_invariant (memStore 4) (some [])
    [.put 0 { Volume := 1, INode := 7 } 0 [1, 2, 3, 4], .put 0 { Volume := 1, INode := 7 } 5 [1, 2, 3, 4], .truncate 3 4, .trim 1 2]
    ⟨fun _ => by decide, fun h => absurd h (by decide), trivial⟩).1
    { Volume := 1, INode := 7, Index := 1 } (by decide)

/-! ## C14: references across persistence -/

/-- C14, as stated, fails: `Unmarshal` into a fresh blockset leaves the counter at 0,
so after reloading the one-entry sequence `[{inode 7, index 1}]` a successful
`PutBlock` for inode 7 at index 1 hands the store the reference `{inode 7, index 1}`
again, equal to the non-zero entry already at index 0. -/
theorem C14_reloaded_counter_repeats_reference :
    (Unmarshal sampleCodec (newBaseBlockset (memStore 4) (some [])) (Marshal sampleCodec ({ ids := 1, blocks := [{ Volume := 1, INode := 7, Index := 1 }], store := some [], blocksize := 4 } : baseBlockset (List (BlockRef × List Byte)))).2.1).b.blocks = [{ Volume := 1, INode := 7, Index := 1 }] ∧
    (Unmarshal sampleCodec (newBaseBlockset (memStore 4) (some [])) (Marshal sampleCodec ({ ids := 1, blocks := [{ Volume := 1, INode := 7, Index := 1 }], store := some [], blocksize := 4 } : baseBlockset (List (BlockRef × List Byte)))).2.1).b.ids = 0 ∧
    (PutBlock (memStore 4) (Unmarshal sampleCodec (newBaseBlockset (memStore 4) (some [])) (Marshal sampleCodec ({ ids := 1, blocks := [{ Volume := 1, INode := 7, Index := 1 }], store := some [], blocksize := 4 } : baseBlockset (List (BlockRef × List Byte)))).2.1).b 0 { Volume := 1, INode := 7 } 1 [5, 6, 7, 8]).out = .ok () ∧
    (PutBlock (memStore 4) (Unmarshal sampleCodec (newBaseBlockset (memStore 4) (some [])) (Marshal sampleCodec ({ ids := 1, blocks := [{ Volume := 1, INode := 7, Index := 1 }], store := some [], blocksize := 4 } : baseBlockset (List (BlockRef × List Byte)))).2.1).b 0 { Volume := 1, INode := 7 } 1 [5, 6, 7, 8]).calls = [.writeBlock 0 { Volume := 1, INode := 7, Index := 1 } [5, 6, 7, 8]] ∧
    (PutBlock (memStore 4) (Unmarshal sampleCodec (newBaseBlockset (memStore 4) (some [])) (Marshal sampleCodec ({ ids := 1, blocks := [{ Volume := 1, INode := 7, Index := 1 }], store := some [], blocksize := 4 } : baseBlockset (List (BlockRef × List Byte)))).2.1).b 0 { Volume := 1, INode := 7 } 1 [5, 6, 7, 8]).b.blocks = [{ Volume := 1, INode := 7, Index := 1 }, { Volume := 1, INode := 7, Index := 1 }] ∧
    ({ Volume := 1, INode := 7, Index := 1 } : BlockRef).IsZero = false := by
  refine ⟨?_, ?_, ?_, ?_, ?_, ?_⟩ <;> decide

/-- C14 (amended). After `Marshal` and `Unmarshal` into a freshly constructed
blockset, and after any further `PutBlock`, `Truncate` and `Trim` calls during which
the counter stays below `2^64`, a successful `PutBlock` whose inode owns no non-zero
entry of the loaded sequence stores a reference that is not the zero sentinel and
differs from every reference present in the sequence before that call. -/
theorem C14_fresh_inode_after_reload {σ τ : Type} (C : Codec) (S : BlockStore σ)
    (b : baseBlockset τ) (store : Option σ) (ops : List Op) (ctx : Context)
    (inode : INodeRef) (i : Int) (data : List Byte)
    (hnw : noWrap S (Unmarshal C (newBaseBlockset S store) (Marshal C b).2.1).b
      (ops ++ [.put ctx inode i data]))
    (hfresh : ∀ r ∈ (Unmarshal C (newBaseBlockset S store) (Marshal C b).2.1).b.blocks,
      r.IsZero = false → r.toINodeRef ≠ inode)
    (hout : (PutBlock S
      (run S (Unmarshal C (newBaseBlockset S store) (Marshal C b).2.1).b ops)
      ctx inode i data).out = .ok ()) :
    ∃ ref : BlockRef,
      (PutBlock S (run S (Unmarshal C (newBaseBlockset S store) (Marshal C b).2.1).b ops)
        ctx inode i data).calls = [.writeBlock ctx ref data] ∧
      (PutBlock S (run S (Unmarshal C (newBaseBlockset S store) (Marshal C b).2.1).b ops)
        ctx inode i data).b.blocks[i.toNat]? = some ref ∧
      ref.IsZero = false ∧
      ∀ r ∈ (run S (Unmarshal C (newBaseBlockset S store) (Marshal C b).2.1).b ops).blocks,
        r ≠ ref := by
  obtain ⟨hn1, hn2⟩ := noWrap_append S ops [.put ctx inode i data] _ hnw
  have hloaded : EntriesAllocated
      (Unmarshal C (newBaseBlockset S store) (Marshal C b).2.1).b.blocks
      (Unmarshal C (newBaseBlockset S store) (Marshal C b).2.1).b :=
    fun r hr => Or.inr (Or.inl hr)
  obtain ⟨_, hall, _⟩ := run_invariant S _ ops _ hn1 hloaded
  generalize run S (Unmarshal C (newBaseBlockset S store) (Marshal C b).2.1).b ops = b1
    at hn2 hout hall ⊢
  obtain ⟨h0, hi, s, s1, hs, hw⟩ := PutBlock_out_ok S b1 ctx inode i data hout
  have hlt : b1.ids + 1 < 2 ^ 64 := (noWrap_cons S b1 _ [] hn2).1 ctx inode i data rfl hi
  have hmod : (b1.ids + 1) % 2 ^ 64 = b1.ids + 1 := Nat.mod_eq_of_lt hlt
  have hnz : ({ toINodeRef := inode, Index := (b1.ids + 1) % 2 ^ 64 } : BlockRef).IsZero
      = false := IsZero_false_of_Index_ne_zero _ (by simp only [hmod]; omega)
  refine ⟨{ toINodeRef := inode, Index := (b1.ids + 1) % 2 ^ 64 }, ?_,
    (PutBlock_ok_entry S b1 ctx inode i data hout).2.1, hnz, ?_⟩
  · rw [PutBlock_ok_eq S b1 ctx inode i data s s1 h0 hi hs hw]
  · intro r hr heq
    rcases hall r hr with hz | hp | ⟨_, hle⟩
    · rw [heq, hnz] at hz
      cases hz
    · have hrz : r.IsZero = false := by rw [heq]; exact hnz
      exact hfresh r hp hrz (by rw [heq])
    · rw [heq, hmod] at hle
      simp only at hle
      omega

/-- Witness for C14: after reloading `[{inode 7, index 1}]`, an append for inode 8. -/
theorem C14_fresh_inode_after_reload_witness :
    ∃ ref : BlockRef,
      (PutBlock (memStore 4) (run (memStore 4) (Unmarshal sampleCodec (newBaseBlockset (memStore 4) (some [])) (Marshal sampleCodec ({ ids := 1, blocks := [{ Volume := 1, INode := 7, Index := 1 }], store := some [], blocksize := 4 } : baseBlockset (List (BlockRef × List Byte)))).2.1).b []) 0 { Volume := 1, INode := 8 } 1 [5, 6, 7, 8]).calls = [.writeBlock 0 ref [5, 6, 7, 8]] ∧
      ∀ r ∈ (run (memStore 4) (Unmarshal sampleCodec (newBaseBlockset (memStore 4) (some [])) (Marshal sampleCodec ({ ids := 1, blocks := [{ Volume := 1, INode := 7, Index := 1 }], store := some [], blocksize := 4 } : baseBlockset (List (BlockRef × List Byte)))).2.1).b []).blocks, r ≠ ref := by
  obtain ⟨ref, h1, _, _, h4⟩ := C14_fresh_inode_after_reload sampleCodec (memStore 4)
    ({ ids := 1, blocks := [{ Volume := 1, INode := 7, Index := 1 }], store := some [], blocksize := 4 } : baseBlockset (List (BlockRef × List Byte)))
    (some []) [] 0 { Volume := 1, INode := 8 } 1 [5, 6, 7, 8]
    ⟨fun _ => by decide, trivial⟩ (by decide) (by decide)
  exact ⟨ref, h1, h4⟩

end blockset
